import Mathlib

/-!
Verification of the candor CAN-bus observer.

This file shallowly embeds the code the claims are about:

* the TRC trace-file parser, `TrcParser::new_from_lines` and its helpers
  `float_ns` / `int_ns` (candor-io/src/trc.rs);
* the statistics engine `Stats::process_packet`, `Stats::periodic` and the
  signal decoder `Stats::signal_text` (candor/src/stats.rs).

Modelling conventions, used consistently below:

* Machine integers are naturals with explicit wrap-around where the source
  can overflow: `u32w` / `u64w` reduce modulo 2^32 / 2^64 (release-build
  wrapping semantics; debug builds would abort instead).  `usize` event
  counters (`count`, `count_accum`) are modeled as unbounded naturals: they
  grow by one per received frame, so 2^64 is unreachable.
* `Instant` and `Duration` are nanosecond counts (`Nat`).  Subtraction of
  instants saturates at zero, matching `Instant::duration_since`.  A parsed
  packet's `time` holds the nanosecond offset from the capture start
  instant (the code stores `start_time + Duration::from_nanos(off)`; the
  opaque `start_time` is taken as the origin).
* Out-of-bounds slice indexing in the source is a panic; functions that can
  panic return `Option`, with `none` for the panic.
* `f32` values are modeled as rationals together with `roundF32`, which
  performs IEEE round-to-nearest-even at 24 significand bits.  Overflow to
  infinity and the coarser subnormal granularity below 2^-126 are not
  modeled; every value evaluated or bounded in the theorems below lies in
  the normal range (or truncates to the same integer regardless).
-/

namespace Candor

/-- Wrap-around bound of a 32-bit unsigned integer. -/
def U32 : Nat := 4294967296

/-- Wrap-around bound of a 64-bit unsigned integer. -/
def U64 : Nat := 18446744073709551616

/-- Reduction modulo 2^32 (release-mode `u32` wrapping arithmetic). -/
def u32w (n : Nat) : Nat := n % U32

/-- Reduction modulo 2^64 (release-mode `u64` wrapping arithmetic). -/
def u64w (n : Nat) : Nat := n % U64

/-- Wrapping `u64` subtraction: both arguments below 2^64. -/
def u64sub (a b : Nat) : Nat := (a + U64 - b) % U64

/-- Model of `candor::Packet` (candor/src/lib.rs). -/
structure Packet where
  source : Nat := 0
  time : Option Nat := none
  extended : Bool := false
  id : Nat := 0
  bytes : List Nat := []
deriving DecidableEq

/-- Value of one hexadecimal digit character, as accepted by
`from_str_radix(_, 16)`. -/
def hexDigit? (c : Char) : Option Nat :=
  if c.isDigit then some (c.toNat - 48)
  else if 'a' ≤ c ∧ c ≤ 'f' then some (c.toNat - 87)
  else if 'A' ≤ c ∧ c ≤ 'F' then some (c.toNat - 55)
  else none

/-- Value of a nonempty all-hex digit string. -/
def hexCore (cs : List Char) : Option Nat :=
  if cs.isEmpty then none
  else cs.foldl (fun acc c => acc.bind (fun a => (hexDigit? c).map (fun d => a * 16 + d))) (some 0)

/-- Model of `uN::from_str_radix(s, 16)` before the width check: optional
sign (a minus sign is only accepted for the value zero on unsigned types),
then one or more hex digits. -/
def parseHex? (s : String) : Option Nat :=
  match s.data with
  | [] => none
  | c :: cs =>
    if c = '+' then hexCore cs
    else if c = '-' then (hexCore cs).bind (fun n => if n = 0 then some 0 else none)
    else hexCore (c :: cs)

/-- Model of `uN::from_str_radix(s, 16)` for an N-bit unsigned type:
values at or above 2^N are a parse error (`PosOverflow`). -/
def parseHexWidth? (w : Nat) (s : String) : Option Nat :=
  (parseHex? s).bind (fun n => if n < 2 ^ w then some n else none)

/-- Result of `str::parse::<f32>` before rounding: not-a-number, a signed
infinity, or the exact rational value of the decimal literal. -/
inductive F32Val
  | nan
  | inf (neg : Bool)
  | fin (q : ℚ)
deriving DecidableEq

/-- Value of a decimal digit string. -/
def decDigitsVal (cs : List Char) : Nat :=
  cs.foldl (fun a c => a * 10 + (c.toNat - 48)) 0

/-- Model of `str::parse::<f32>`: optional sign, then `inf` / `infinity` /
`nan` (ASCII case-insensitive) or a decimal literal with optional fraction
and exponent.  The numeric payload is the exact rational value of the
literal; rounding to `f32` is applied by the consumer (`satU64trunc`). -/
def parseF32? (s : String) : Option F32Val :=
  let sb : Bool × List Char :=
    match s.data with
    | '+' :: r => (false, r)
    | '-' :: r => (true, r)
    | r => (false, r)
  let neg := sb.1
  let body := sb.2
  let lower := body.map Char.toLower
  if lower = [ 'i', 'n', 'f'] ∨ lower = [ 'i', 'n', 'f', 'i', 'n', 'i', 't', 'y'] then
    some (.inf neg)
  else if lower = [ 'n', 'a', 'n'] then some F32Val.nan
  else
    let ipr := body.span Char.isDigit
    let ip := ipr.1
    let fpr : List Char × List Char :=
      match ipr.2 with
      | '.' :: r => r.span Char.isDigit
      | r => ([], r)
    let fp := fpr.1
    let rest := if ipr.2.head? = some '.' then fpr.2 else ipr.2
    if ip.isEmpty ∧ fp.isEmpty then none
    else
      let expOpt : Option ℤ :=
        match rest with
        | [] => some 0
        | e :: r3 =>
          if e = 'e' ∨ e = 'E' then
            let esr : Bool × List Char :=
              match r3 with
              | '+' :: r => (false, r)
              | '-' :: r => (true, r)
              | r => (false, r)
            if esr.2.isEmpty then none
            else if esr.2.all Char.isDigit then
              some (if esr.1 then -(decDigitsVal esr.2 : ℤ) else (decDigitsVal esr.2 : ℤ))
            else none
          else none
      match expOpt with
      | none => none
      | some ex =>
        let M : ℕ := decDigitsVal (ip ++ fp)
        let E : ℤ := ex - fp.length
        some (.fin ((if neg then (-1 : ℚ) else 1) * M * 10 ^ E))

/-- Round half to even of a rational to an integer. -/
def rhe (q : ℚ) : ℤ :=
  let f := ⌊q⌋
  let r := q - f
  if r < 1 / 2 then f
  else if 1 / 2 < r then f + 1
  else if f % 2 = 0 then f else f + 1

/-- Fueled search for the least k with q * 2^k at least 1 (used for the
binary exponent of rationals below one).  The fuel covers every exponent
down to far below the f32 subnormal range; values tinier than that truncate
to zero either way. -/
def negExpAux : Nat → ℚ → Nat → Option Nat
  | 0, _, _ => none
  | fuel + 1, q, k => if 1 ≤ q * 2 ^ k then some k else negExpAux fuel q (k + 1)

/-- Fueled floor base-2 logarithm on naturals (`Nat.log2` is defined by
well-founded recursion, which the kernel cannot evaluate; this structural
version can, and fuel `n` always suffices). -/
def log2fuel : Nat → Nat → Nat
  | 0, _ => 0
  | fuel + 1, n => if 2 ≤ n then log2fuel fuel (n / 2) + 1 else 0

/-- Floor base-2 logarithm of a natural number. -/
def natLog2 (n : Nat) : Nat := log2fuel n n

/-- Floor of the base-2 logarithm of a positive rational. -/
def floorLog2? (q : ℚ) : Option ℤ :=
  if 1 ≤ q then some (natLog2 ⌊q⌋.toNat)
  else (negExpAux 800 q 1).map (fun k => -(k : ℤ))

/-- IEEE round-to-nearest-even of a positive rational at 24 significand
bits (the f32 significand).  Exhausted fuel (far below the f32 range)
rounds to zero. -/
def roundF32pos (q : ℚ) : ℚ :=
  match floorLog2? q with
  | none => 0
  | some e => (rhe (q * 2 ^ (23 - e)) : ℚ) * 2 ^ (e - 23)

/-- IEEE round-to-nearest-even of a rational to the f32 value lattice
(normal-range granularity; see the module comment). -/
def roundF32 (q : ℚ) : ℚ :=
  if q = 0 then 0
  else if 0 < q then roundF32pos q
  else -(roundF32pos (-q))

/-- Model of `f as u64` on the f32 value of a parsed literal: NaN and
negative values go to zero, values beyond the range saturate, otherwise
truncate toward zero. -/
def satU64trunc (v : F32Val) : Nat :=
  match v with
  | .nan => 0
  | .inf neg => if neg then 0 else U64 - 1
  | .fin q =>
    let r := roundF32 q
    if r < 0 then 0 else min ⌊r⌋.toNat (U64 - 1)

/-- Model of `float_ns` (trc.rs:170): parse the field as `f32`, truncate to
a whole number of milliseconds via `as u64`, then scale by 1 000 000. -/
def float_ns? (s : String) : Option Nat :=
  (parseF32? s).map (fun v => u64w (satU64trunc v * 1000000))

/-- Model of `int_ns` (trc.rs:175): parse the field as a base-16 `u64`,
then scale by 1 000 000. -/
def int_ns? (s : String) : Option Nat :=
  (parseHexWidth? 64 s).map (fun n => u64w (n * 1000000))

/-- The five TRC dialects (trc.rs `TrcVersion`). -/
inductive TrcVersion
  | V1_0
  | V1_1
  | V1_3
  | V2_0
  | V2_1
deriving DecidableEq

/-- State of the mutable locals of the `new_from_lines` loop: the current
dialect, the `;$COLUMNS` directive value, and the first successfully parsed
row timestamp. -/
structure LoopSt where
  version : TrcVersion := .V1_0
  columns : String := ""
  firstTime : Option Nat := none
deriving DecidableEq

/-- Structural splitter at characters satisfying `p`, with the semantics
of `str::split`: a separator at either end or two adjacent separators
produce empty pieces.  (`String.split` has the same behavior but is
defined by well-founded recursion, which the kernel cannot evaluate.) -/
def splitByPred (p : Char → Bool) : List Char → List (List Char)
  | [] => [[]]
  | a :: rest =>
    let r := splitByPred p rest
    if p a then [] :: r
    else
      match r with
      | h :: t => (a :: h) :: t
      | [] => [[a]]

/-- Model of `str::split_whitespace` for ASCII input: split at whitespace
characters, dropping empty pieces. -/
def splitWs (line : String) : List String :=
  ((splitByPred Char.isWhitespace line.data).map String.mk).filter (fun t => ¬ t = "")

/-- Model of `line.split("=")` for the one-character pattern. -/
def splitOnEq (line : String) : List String :=
  (splitByPred (fun c => c = '=') line.data).map String.mk

/-- Model of `str::starts_with` by character-list prefix. -/
def strStartsWith (line pre : String) : Bool :=
  pre.data.isPrefixOf line.data

/-- Outcome of processing one input line: an out-of-bounds panic, a hard
parse failure, a skipped line, or an emitted packet; the last two carry the
updated loop state. -/
inductive LineOut
  | panic
  | fail (msg : String)
  | skip (st : LoopSt)
  | emit (p : Packet) (st : LoopSt)
deriving DecidableEq

/-- Model of `columns.contains("B")`: a one-character substring test is a
character membership test. -/
def strContains (s : String) (c : Char) : Bool :=
  s.data.contains c

/-- Tail of a data row after the timestamp transform (trc.rs:223-250):
parse the identifier column (skipping the all-ones status marker), the
data-length column, and the data bytes; `tstore` is the already
synchronized timestamp stored in the packet.  Indexing a missing column is
a panic. -/
def procRowRest (index tstore : Nat) (st : LoopSt) (cols : List String)
    (idc dlcc : Nat) : LineOut :=
  match cols[idc]? with
  | none => .panic
  | some idS =>
    match parseHexWidth? 32 idS with
    | none => .fail ("invalid digits in id column")
    | some id =>
      if id = 4294967295 then .skip st
      else
        match cols[dlcc]? with
        | none => .panic
        | some dlcS =>
          match parseHexWidth? 64 dlcS with
          | none => .fail ("invalid digits in dlc column")
          | some dlc =>
            let dataCol := dlcc + 1
            if cols.length < dataCol + dlc ∨ (0 < dlc ∧ cols.getD dataCol ("") = "RTR") then
              .skip st
            else
              let bytes := (List.range dlc).map
                (fun i => (parseHexWidth? 8 (cols.getD (dataCol + i) (""))).getD 0)
              .emit { source := index, time := some tstore,
                      extended := 4 < idS.length, id := id, bytes := bytes } st

/-- Common tail of a data row (trc.rs:205-250): record the first parsed
timestamp, apply the `synchronize_origin` transform, then process the rest
of the columns. -/
def procRow (index : Nat) (sync : Bool) (st : LoopSt) (cols : List String)
    (idc dlcc tns : Nat) : LineOut :=
  match st.firstTime with
  | none =>
    procRowRest index (if sync then 0 else tns) { st with firstTime := some tns }
      cols idc dlcc
  | some t =>
    procRowRest index (if sync then u64sub tns t else tns) st cols idc dlcc

/-- Directive processing (trc.rs:137-160): `;$KEY=VALUE` lines update the
loop state or fail hard. -/
def procDirective (st : LoopSt) (line : String) : LineOut :=
  let s := splitOnEq line
  if s.length < 2 then .fail ("Invalid directive " ++ line)
  else
    let value := s.getD 1 ("")
    match s.getD 0 ("") with
    | ";$FILEVERSION" =>
      match value with
      | "1.1" => .skip { st with version := .V1_1 }
      | "1.3" => .skip { st with version := .V1_3 }
      | "2.0" => .skip { st with version := .V2_0 }
      | "2.1" => .skip { st with version := .V2_1 }
      | _ => .fail ("Unknown version")
    | ";$STARTTIME" => .skip st
    | ";$COLUMNS" => .skip { st with columns := value }
    | _ => .skip st

/-- Identifier and data-length column indices for the 2.x dialects
(trc.rs:186-194), decided by the presence of the bus and reserved column
roles in the `;$COLUMNS` value. -/
def v2cols (columns : String) : Nat × Nat :=
  let hasBus := strContains columns 'B'
  let hasRsvd := strContains columns 'R'
  (if hasBus then 4 else 3,
   match hasBus, hasRsvd with
   | false, false => 5
   | false, true => 6
   | true, false => 6
   | true, true => 7)

/-- Model of the body of the `new_from_lines` loop (trc.rs:135-252) for one
line: directives, comments, and data rows. -/
def procLine (index : Nat) (sync : Bool) (st : LoopSt) (line : String) : LineOut :=
  if strStartsWith line (";$") then procDirective st line
  else if strStartsWith line (";") then .skip st
  else
    let cols := splitWs line
    if cols.isEmpty then .skip st
    else
      match st.version with
      | .V1_0 =>
        match cols[1]? with
        | none => .panic
        | some s1 =>
          match int_ns? s1 with
          | none => .fail ("invalid digits in time column")
          | some tns => procRow index sync st cols 2 3 tns
      | .V1_1 =>
        match cols[1]? with
        | none => .panic
        | some s1 =>
          match float_ns? s1 with
          | none => .fail ("invalid float in time column")
          | some tns => procRow index sync st cols 3 4 tns
      | .V1_3 =>
        match cols[1]? with
        | none => .panic
        | some s1 =>
          match float_ns? s1 with
          | none => .fail ("invalid float in time column")
          | some tns => procRow index sync st cols 4 6 tns
      | .V2_0 | .V2_1 =>
        let idc := (v2cols st.columns).1
        let dlcc := (v2cols st.columns).2
        if cols.length < 6 then .skip st
        else
          match cols[dlcc + 1]? with
          | none => .panic
          | some cnext =>
            if cnext = "RTR" then .skip st
            else if ¬ cols.getD 2 ("") = "DT" ∧ ¬ cols.getD 2 ("") = "FD" then .skip st
            else
              match cols[1]? with
              | none => .panic
              | some s1 =>
                match float_ns? s1 with
                | none => .fail ("invalid float in time column")
                | some tns => procRow index sync st cols idc dlcc tns

/-- The `new_from_lines` loop over the remaining lines, also returning the
final loop state.  `none` models a panic; `Except.error` a hard parse
failure. -/
def trcGo (index : Nat) (sync : Bool) :
    List String → LoopSt → Option (Except String (List Packet × LoopSt))
  | [], st => some (.ok ([], st))
  | line :: rest, st =>
    match procLine index sync st line with
    | .panic => none
    | .fail e => some (.error e)
    | .skip st2 => trcGo index sync rest st2
    | .emit p st2 =>
      (trcGo index sync rest st2).map (Except.map (fun x => (p :: x.1, x.2)))

/-- Model of `TrcParser::new_from_lines` (trc.rs:124): the emitted packets
in file order, or a parse error; `none` models a panic. -/
def trcParse (lines : List String) (index : Nat) (sync : Bool) :
    Option (Except String (List Packet)) :=
  (trcGo index sync lines {}).map (Except.map (fun x => x.1))

/-- Model of `candor::stats::Message` (stats.rs:36).  Durations are
nanosecond counts. -/
structure Message where
  source : Nat := 0
  dbc : Option Nat := none
  count : Nat := 0
  delta : Nat := 0
  missing : Nat := 0
  current : Packet := {}
  previous : Packet := {}
  count_accum : Nat := 0
deriving DecidableEq

/-- Model of `candor::stats::Stats` (stats.rs:12).  The `HashMap` from
identifiers to slot indices is an association list looked up by first
match; each `DbcLookup` is abstracted to the set of message identifiers it
resolves (its only use in the embedded functions is `contains_key`).
`time` is the instant of the last applied tick, in nanoseconds. -/
structure Stats where
  baud : Nat := 0
  bytes : Nat := 0
  packets : Nat := 0
  load : Nat := 0
  pps : Nat := 0
  messages : List Message := []
  ids : List (Nat × Nat) := []
  bytes_accum : Nat := 0
  packet_accum : Nat := 0
  dbcs : List (List Nat) := []
  sorted : Bool := false
  ordering : List Nat := []
  time : Option Nat := none
deriving DecidableEq

/-- Model of `Stats::new(baud)`: `now` stands for the `Instant::now()`
sample taken at construction. -/
def statsNew (baud now : Nat) : Stats :=
  { baud := baud, time := some now }

/-- Model of `Stats::add_dbc` after a successful load, keeping only the id
set of the loaded `DbcLookup`. -/
def addDbc (s : Stats) (dbcIds : List Nat) : Stats :=
  { s with dbcs := s.dbcs ++ [dbcIds] }

/-- First-match association-list lookup, the `HashMap::get` /
`contains_key` model. -/
def idLookup : List (Nat × Nat) → Nat → Option Nat
  | [], _ => none
  | e :: l, k => if e.1 = k then some e.2 else idLookup l k

/-- Model of `HashMap::entry(k).or_default()` as used while rebuilding the
ordering: look the key up, inserting slot 0 if absent (the insertion never
fires on reachable states, where every message identifier is registered). -/
def entryOrDefault (ids : List (Nat × Nat)) (k : Nat) : Nat × List (Nat × Nat) :=
  match idLookup ids k with
  | some v => (v, ids)
  | none => (0, ids ++ [(k, 0)])

/-- In-place update of one list element; out of range leaves the list
unchanged (the source's `get_mut(index).expect(..)` would panic there, but
the index always comes from the id map, which only holds valid slots). -/
def modifyIdx : List α → Nat → (α → α) → List α
  | [], _, _ => []
  | a :: l, 0, f => f a :: l
  | a :: l, n + 1, f => a :: modifyIdx l n f

/-- Identifier list of the registered slots, in slot order. -/
def idList (s : Stats) : List Nat :=
  s.messages.map (fun m => m.current.id)

/-- Slots assigned to the popped identifiers, max first, threading the id
map through `entry(..).or_default()` (stats.rs:171-174). -/
def rebuildGo : List Nat → List (Nat × Nat) → List Nat × List (Nat × Nat)
  | [], ids => ([], ids)
  | k :: rest, ids =>
    let h := entryOrDefault ids k
    let t := rebuildGo rest h.2
    (h.1 :: t.1, t.2)

/-- Model of the ordering rebuild (stats.rs:165-176): the `BinaryHeap` of
all current identifiers pops them in descending order, and the loop fills
`ordering` from its last index down, so `ordering` lists the slots of the
ascending identifier sort. -/
def rebuildOrdering (s : Stats) : Stats :=
  let desc := (List.insertionSort (fun a b => a ≤ b) (idList s)).reverse
  let r := rebuildGo desc s.ids
  { s with ordering := r.1.reverse, ids := r.2, sorted := true }

/-- Model of `Message::new` (stats.rs:243): only `source` and `dbc` are
set; everything else, including `current` and `previous`, is default. -/
def messageNew (p : Packet) (dbc : Option Nat) : Message :=
  { source := p.source, dbc := dbc }

/-- Model of `Stats::process_packet` (stats.rs:133): bump the channel
counters, register a never-seen identifier (searching the DBC id sets in
load order), update the slot, and rebuild the display ordering if stale. -/
def processPacket (s : Stats) (p : Packet) : Stats :=
  let nb := p.bytes.length
  let s := { s with packets := u32w (s.packets + 1), packet_accum := u32w (s.packet_accum + 1),
                    bytes := u32w (s.bytes + nb), bytes_accum := u32w (s.bytes_accum + nb) }
  let reg : Nat × Stats :=
    match idLookup s.ids p.id with
    | some i => (i, s)
    | none =>
      let dbc := s.dbcs.findIdx? (fun d => p.id ∈ d)
      (s.messages.length,
        { s with messages := s.messages ++ [messageNew p dbc],
                 ids := s.ids ++ [(p.id, s.messages.length)],
                 sorted := false })
  let index := reg.1
  let s := reg.2
  let s := { s with messages := modifyIdx s.messages index (fun m =>
    { m with count := m.count + 1, count_accum := m.count_accum + 1,
             previous := m.current, current := p, missing := 0 }) }
  if s.sorted then s else rebuildOrdering s

/-- Per-message body of the applied-tick loop (stats.rs:114-130): a slot
with arrivals this tick gets period `1000 / arrivals` milliseconds and a
cleared accumulator; otherwise, if the elapsed time since its current
frame exceeds `min(3 * period, 2 s)`, it is marked stale. -/
def tickMessage (now : Nat) (m : Message) : Message :=
  if 0 < m.count_accum then
    { m with delta := 1000 / m.count_accum * 1000000, count_accum := 0 }
  else
    let time := m.current.time.getD (now - 1000000000)
    let expired := min (m.delta * 3) 2000000000
    if expired < now - time then { m with missing := now - time, delta := 0 }
    else m

/-- Model of `Stats::periodic` (stats.rs:97): a no-op within one second of
the last applied tick; otherwise smooth load and packet rate, clear the
tick accumulators, and run the staleness pass over every slot. -/
def periodic (s : Stats) (now : Nat) : Stats :=
  let last := s.time.getD now
  if (now - last) / 1000000000 < 1 then s
  else
    { s with time := some now,
             load := u32w (s.load + u32w (100 * u32w (u32w (s.bytes_accum * 10) + 5)) / s.baud) / 2,
             pps := u32w (s.pps + s.packet_accum) / 2,
             bytes_accum := 0,
             packet_accum := 0,
             messages := s.messages.map (tickMessage now) }

/-- Model of `can_dbc::ByteOrder`. -/
inductive ByteOrder
  | LittleEndian
  | BigEndian
deriving DecidableEq

/-- Model of `can_dbc::ValueType`. -/
inductive ValueType
  | Signed
  | Unsigned
deriving DecidableEq

/-- Model of `can_dbc::MultiplexIndicator`. -/
inductive MultiplexIndicator
  | Plain
  | Multiplexor
  | MultiplexedSignal (v : Nat)
  | MultiplexorAndMultiplexedSignal (v : Nat)
deriving DecidableEq

/-- Model of the `can_dbc::Signal` fields read by `signal_text`.  The
`f64` fields `factor` and `offset` are exact rationals; `signal_text`
narrows them with `roundF32` just as the source casts them with `as f32`. -/
structure SignalDef where
  start_bit : Nat
  signal_size : Nat
  multiplexer_indicator : MultiplexIndicator
  value_type : ValueType
  byte_order : ByteOrder
  factor : ℚ
  offset : ℚ
  unit : String
deriving DecidableEq

/-- The payload as a bit stream in `Lsb0` order: byte 0 bit 0 first. -/
def lsb0Bits (bytes : List Nat) : List Bool :=
  bytes.flatMap (fun b => (List.range 8).map (fun i => b.testBit i))

/-- The payload as a bit stream in `Msb0` order: byte 0 bit 7 first. -/
def msb0Bits (bytes : List Nat) : List Bool :=
  bytes.flatMap (fun b => (List.range 8).map (fun i => b.testBit (7 - i)))

/-- Integer value of a bit list whose first element is least significant
(`load_le` on an `Lsb0` slice). -/
def bitsToNatLE (bs : List Bool) : Nat :=
  bs.foldr (fun b acc => acc * 2 + (if b then 1 else 0)) 0

/-- Integer value of a bit list whose first element is most significant
(`load_be` on an `Msb0` slice). -/
def bitsToNatBE (bs : List Bool) : Nat :=
  bs.foldl (fun acc b => acc * 2 + (if b then 1 else 0)) 0

/-- Raw field extraction of `signal_text` (stats.rs:207-231): slice the
payload bit view per byte order, load the integer, and for signed signals
sign-extend from the most significant live bit (`bitvec`'s behavior when
loading into `i64`).  `none` models the panics: an out-of-range slice, an
empty load, a load wider than 64 bits, or the `start - (size - 1)`
underflow of the big-endian path. -/
def rawValue (sig : SignalDef) (bytes : List Nat) : Option ℤ :=
  let start := sig.start_bit
  let size := sig.signal_size
  if size = 0 ∨ 64 < size then none
  else
    let u? : Option Nat :=
      match sig.byte_order with
      | .LittleEndian =>
        let bits := lsb0Bits bytes
        if start + size ≤ bits.length then
          some (bitsToNatLE ((bits.drop start).take size))
        else none
      | .BigEndian =>
        let bits := msb0Bits bytes
        if size - 1 ≤ start ∧ start + 1 ≤ bits.length then
          some (bitsToNatBE ((bits.drop (start - (size - 1))).take size))
        else none
    u?.map (fun u =>
      match sig.value_type with
      | .Unsigned => (u : ℤ)
      | .Signed => if 2 ^ (size - 1) ≤ u then (u : ℤ) - 2 ^ size else (u : ℤ))

/-- Multiplication of two f32 values. -/
def f32mul (a b : ℚ) : ℚ := roundF32 (a * b)

/-- Addition of two f32 values. -/
def f32add (a b : ℚ) : ℚ := roundF32 (a + b)

/-- Model of `(v) as u64` for a finite f32 value: negative values go to
zero, huge values saturate, otherwise truncate toward zero. -/
def satU64 (q : ℚ) : Nat :=
  if q < 0 then 0 else min ⌊q⌋.toNat (U64 - 1)

/-- Three-character zero padding of a value below 1000. -/
def pad3 (n : Nat) : String :=
  if n < 10 then "00" ++ toString n
  else if n < 100 then "0" ++ toString n
  else toString n

/-- Fixed three-decimal formatting of a nonnegative value. -/
def formatFixed3core (q : ℚ) : String :=
  let m := (rhe (q * 1000)).toNat
  toString (m / 1000) ++ "." ++ pad3 (m % 1000)

/-- Model of `format!("{:.3}", v)` on an f32 value: exact decimal
conversion rounded to three places, ties to even. -/
def formatFixed3 (q : ℚ) : String :=
  if q < 0 then "-" ++ formatFixed3core (-q) else formatFixed3core q

/-- Model of `Stats::signal_text` (stats.rs:191-239).  The `&self` and
`_msg` parameters are unread in the source and omitted.  `none` models the
panics of `rawValue` on out-of-range definitions. -/
def signalText (sig : SignalDef) (packet : Packet) : Option String :=
  if sig.multiplexer_indicator ≠ .Plain ∧ sig.multiplexer_indicator ≠ .Multiplexor then
    some ("<multiplexed>")
  else
    (rawValue sig packet.bytes).map (fun raw =>
      let value := roundF32 (raw : ℚ)
      let factor := roundF32 sig.factor
      let offset := roundF32 sig.offset
      if factor ≠ 1 ∨ offset < 0 then
        formatFixed3 (f32add (f32mul value factor) offset) ++ sig.unit
      else
        toString (satU64 (f32add value offset)) ++ sig.unit)

/-- Shift a packet's timestamp back by `t`, wrapping as `u64` subtraction
does; relates synchronized and unsynchronized parses. -/
def shiftTime (t : Nat) (p : Packet) : Packet :=
  { p with time := p.time.map (fun x => u64sub x t) }

/-- One smoothing step of the exponential moving average used for load and
packet rate. -/
def emaNext (k x : Nat) : Nat := (x + k) / 2

/-- Steady-state tick schedule: before each tick the per-tick accumulators
are refilled to the constants `B` and `F` (identical traffic every second),
and ticks arrive exactly one second apart starting at `t0`. -/
def steadyRun (B F : Nat) (s0 : Stats) (t0 : Nat) : Nat → Stats
  | 0 => s0
  | n + 1 =>
    periodic { steadyRun B F s0 t0 n with bytes_accum := B, packet_accum := F }
      (t0 + (n + 1) * 1000000000)

/-- The id map contents on a reachable state: each slot's identifier paired
with its index, in registration order (`n` is the index of the first slot). -/
def slotPairs : List Nat → Nat → List (Nat × Nat)
  | [], _ => []
  | a :: l, n => (a, n) :: slotPairs l (n + 1)

/-- The ordering the rebuild produces on a reachable state: the slot of each
identifier in the ascending identifier sort. -/
def orderingSpec (ids : List (Nat × Nat)) (l : List Nat) : List Nat :=
  (List.insertionSort (fun a b => a ≤ b) l).map (fun k => (idLookup ids k).getD 0)

/-- Reachability invariant of `Stats`: the id map lists every slot's
identifier at its slot index, slot identifiers are pairwise distinct, the
ordering is the rebuilt one whenever `sorted` is set, and before the first
frame everything is empty. -/
def StatsInv (s : Stats) : Prop :=
  s.ids = slotPairs (idList s) 0 ∧ (idList s).Nodup ∧
    (s.sorted = true → s.ordering = orderingSpec s.ids (idList s)) ∧
    (s.sorted = false → s.ordering = [] ∧ s.messages = [])

/-- The slot update applied to the registered message. -/
def slotUpdate (p : Packet) (m : Message) : Message :=
  { m with count := m.count + 1, count_accum := m.count_accum + 1,
           previous := m.current, current := p, missing := 0 }

/-- Distance of `x` from the fixed-point set of `emaNext k` (which is
`{k}` for `k = 0` and `{k - 1, k}` otherwise). -/
def distK (k x : Nat) : Nat := if k ≤ x then x - k else k - 1 - x

/-! ### Helper lemmas on the association list and list surgery -/

theorem idLookup_append_of_none {ids : List (Nat × Nat)} {k : Nat}
    (h : idLookup ids k = none) (rest : List (Nat × Nat)) :
    idLookup (ids ++ rest) k = idLookup rest k := by
  induction ids with
  | nil => rfl
  | cons e l ih =>
    by_cases he : e.1 = k
    · simp [idLookup, he] at h
    · simp only [idLookup, he, if_false, List.cons_append, List.append_eq] at h ⊢
      exact ih h

theorem idLookup_append_of_some {ids : List (Nat × Nat)} {k v : Nat}
    (h : idLookup ids k = some v) (rest : List (Nat × Nat)) :
    idLookup (ids ++ rest) k = some v := by
  induction ids with
  | nil => exact Option.noConfusion h
  | cons e l ih =>
    by_cases he : e.1 = k
    · simp only [idLookup, he, if_true] at h ⊢
      exact h
    · simp only [idLookup, he, if_false, List.cons_append, List.append_eq] at h ⊢
      exact ih h

theorem length_modifyIdx (l : List α) (i : Nat) (f : α → α) :
    (modifyIdx l i f).length = l.length := by
  induction l generalizing i with
  | nil => rfl
  | cons a l ih =>
    cases i with
    | zero => rfl
    | succ n => simp [modifyIdx, ih]

theorem getElem?_modifyIdx (l : List α) (i j : Nat) (f : α → α) :
    (modifyIdx l i f)[j]? = if i = j then (l[j]?).map f else l[j]? := by
  induction l generalizing i j with
  | nil => simp [modifyIdx]
  | cons a l ih =>
    cases i with
    | zero =>
      cases j with
      | zero => simp [modifyIdx]
      | succ m => simp [modifyIdx]
    | succ n =>
      cases j with
      | zero => simp [modifyIdx]
      | succ m =>
        simp only [modifyIdx, List.getElem?_cons_succ, ih]
        by_cases h : n = m
        · simp [h]
        · simp [h, fun hc => h (Nat.succ_injective hc)]

theorem modifyIdx_append_length (l : List α) (a : α) (f : α → α) :
    modifyIdx (l ++ [a]) l.length f = l ++ [f a] := by
  induction l with
  | nil => rfl
  | cons b l ih => simp [modifyIdx, ih]

theorem rebuildGo_ids_extends (ks : List Nat) (ids : List (Nat × Nat)) :
    ∃ ext, (rebuildGo ks ids).2 = ids ++ ext := by
  induction ks generalizing ids with
  | nil => exact ⟨[], by simp [rebuildGo]⟩
  | cons k rest ih =>
    simp only [rebuildGo]
    unfold entryOrDefault
    cases h : idLookup ids k with
    | some v =>
      simpa using ih ids
    | none =>
      obtain ⟨ext, hext⟩ := ih (ids ++ [(k, 0)])
      exact ⟨(k, 0) :: ext, by simpa using hext⟩

/-! ### C1: decoding a multiplexed signal -/

/-- C1 (counterexample): for a signal whose multiplex role is neither
plain nor selector, `signal_text` returns the placeholder string
`"<multiplexed>"`, not the empty string claimed. -/
theorem C1_counterexample :
    signalText ⟨0, 8, .MultiplexedSignal 1, .Unsigned, .LittleEndian, 1, 0, ("u")⟩
        ({} : Packet) = some ("<multiplexed>") ∧
      ¬ ((("<multiplexed>") : String) = ("")) := by
  exact ⟨rfl, by decide⟩

/-- C1 (amended): for every signal whose multiplex role is neither plain
nor selector (`Multiplexor`), `signal_text` returns the placeholder
`"<multiplexed>"` for every payload, rather than the empty string. -/
theorem C1_multiplexed_placeholder (sig : SignalDef) (p : Packet)
    (h1 : sig.multiplexer_indicator ≠ .Plain)
    (h2 : sig.multiplexer_indicator ≠ .Multiplexor) :
    signalText sig p = some ("<multiplexed>") := by
  unfold signalText
  rw [if_pos ⟨h1, h2⟩]

/-- C1 (witness): the amended theorem applied to a concrete multiplexed
signal and payload. -/
theorem C1_witness :
    signalText ⟨3, 4, .MultiplexorAndMultiplexedSignal 2, .Signed, .BigEndian, 1, 0, ("x")⟩
        { bytes := [255] } = some ("<multiplexed>") :=
  C1_multiplexed_placeholder _ _ (by decide) (by decide)

/-! ### C4: totality of parsing -/

/-- C4 (code evaluation at the failing inputs): a dialect-1.0 data row
with only two tokens drives `cols[2]` out of bounds, and a dialect-2.0 row
with exactly six tokens drives `cols[dlc_col + 1]` out of bounds; both are
panics (`none`), not skips or parse errors. -/
theorem C4_parser_panics :
    trcParse [("1) A")] 0 false = none ∧
    trcParse [(";$FILEVERSION=2.0"), (";$COLUMNS=N,O,T,I,d,l,D"),
        ("1 17535.400 DT 00000100 Tx 8")] 0 false = none := by
  constructor
  · with_unfolding_all rfl
  · with_unfolding_all rfl

/-! ### C6: tick gating and load smoothing -/

/-- C6: a tick less than one second after the last applied tick is a
complete no-op; an applied tick recomputes the load and packet-rate
moving averages by the documented formulas and zeroes the per-tick
accumulators (stated under bounds that keep the `u32` arithmetic away from
wrap-around). -/
theorem C6_tick_gating_and_smoothing (s : Stats) (now t : Nat) (h : s.time = some t) :
    (now - t < 1000000000 → periodic s now = s) ∧
    (1000000000 ≤ now - t → 1 ≤ s.baud → s.load < 2 ^ 31 → s.bytes_accum ≤ 1000000 →
      s.pps < 2 ^ 31 → s.packet_accum < 2 ^ 31 →
      (periodic s now).load = (s.load + 100 * (s.bytes_accum * 10 + 5) / s.baud) / 2 ∧
      (periodic s now).pps = (s.pps + s.packet_accum) / 2 ∧
      (periodic s now).bytes_accum = 0 ∧ (periodic s now).packet_accum = 0) := by
  constructor
  · intro hlt
    have hgate : (now - t) / 1000000000 < 1 := by omega
    unfold periodic
    rw [h]
    simp only [Option.getD_some]
    rw [if_pos hgate]
  · intro hge hbaud hload hbytes hpps hpacc
    have hgate : ¬ (now - t) / 1000000000 < 1 := by omega
    unfold periodic
    rw [h]
    simp only [Option.getD_some]
    rw [if_neg hgate]
    have h1 : u32w (s.bytes_accum * 10) = s.bytes_accum * 10 := by
      unfold u32w U32; omega
    have h2 : u32w (s.bytes_accum * 10 + 5) = s.bytes_accum * 10 + 5 := by
      unfold u32w U32; omega
    have h3 : u32w (100 * (s.bytes_accum * 10 + 5)) = 100 * (s.bytes_accum * 10 + 5) := by
      unfold u32w U32; omega
    have h4 : 100 * (s.bytes_accum * 10 + 5) / s.baud ≤ 1000000500 :=
      le_trans (Nat.div_le_self _ _) (by omega)
    have h5 : u32w (s.load + 100 * (s.bytes_accum * 10 + 5) / s.baud) =
        s.load + 100 * (s.bytes_accum * 10 + 5) / s.baud := by
      unfold u32w U32
      exact Nat.mod_eq_of_lt (by omega)
    have h6 : u32w (s.pps + s.packet_accum) = s.pps + s.packet_accum := by
      unfold u32w U32
      exact Nat.mod_eq_of_lt (by omega)
    refine ⟨?_, ?_, rfl, rfl⟩
    · simp only [h1, h2, h3, h5]
    · simp only [h6]

/-- C6 (witness): the gating and the smoothing formula at a concrete
state and tick times. -/
theorem C6_witness :
    (periodic { baud := 1000, time := some 0, bytes_accum := 50,
                packet_accum := 7, load := 10, pps := 5 } 500000000 =
      { baud := 1000, time := some 0, bytes_accum := 50,
        packet_accum := 7, load := 10, pps := 5 }) ∧
    (periodic { baud := 1000, time := some 0, bytes_accum := 50,
                packet_accum := 7, load := 10, pps := 5 } 1000000000).load = 30 := by
  constructor
  · exact (C6_tick_gating_and_smoothing _ 500000000 0 rfl).1 (by omega)
  · have h := ((C6_tick_gating_and_smoothing
        { baud := 1000, time := some 0, bytes_accum := 50,
          packet_accum := 7, load := 10, pps := 5 } 1000000000 0 rfl).2
      (by decide) (by decide) (by decide) (by decide) (by decide) (by decide)).1
    rw [h]
    rfl

/-! ### Unfolding lemmas for `processPacket` -/

theorem processPacket_messages_miss (s : Stats) (p : Packet)
    (h : idLookup s.ids p.id = none) :
    (processPacket s p).messages =
      s.messages ++ [slotUpdate p (messageNew p (s.dbcs.findIdx? (fun d => p.id ∈ d)))] := by
  unfold processPacket
  simp only [h]
  rw [modifyIdx_append_length]
  simp only [rebuildOrdering]
  rfl

theorem processPacket_ids_miss (s : Stats) (p : Packet)
    (h : idLookup s.ids p.id = none) :
    ∃ ext, (processPacket s p).ids = (s.ids ++ [(p.id, s.messages.length)]) ++ ext := by
  unfold processPacket
  simp only [h]
  rw [modifyIdx_append_length]
  simp only [rebuildOrdering]
  exact rebuildGo_ids_extends _ _

theorem processPacket_messages_hit (s : Stats) (p : Packet) (i : Nat)
    (h : idLookup s.ids p.id = some i) :
    (processPacket s p).messages = modifyIdx s.messages i (slotUpdate p) := by
  unfold processPacket
  simp only [h]
  by_cases hs : s.sorted
  · simp only [hs]
    rfl
  · simp only [Bool.not_eq_true] at hs
    simp only [hs, rebuildOrdering]
    rfl

theorem processPacket_ids_hit (s : Stats) (p : Packet) (i : Nat)
    (h : idLookup s.ids p.id = some i) :
    ∃ ext, (processPacket s p).ids = s.ids ++ ext := by
  unfold processPacket
  simp only [h]
  by_cases hs : s.sorted
  · exact ⟨[], by simp [hs]⟩
  · simp only [Bool.not_eq_true] at hs
    simp only [hs, rebuildOrdering]
    simpa using rebuildGo_ids_extends _ _

/-! ### C10: first arrival leaves `previous` at the default packet -/

/-- C10: directly after the first frame of a never-seen identifier, the
created slot's `previous` field is the default empty packet (identifier 0,
no timestamp, empty payload) and `current` is that frame; only after a
second frame of the same identifier does `previous` hold the first frame. -/
theorem C10_previous_default_then_first (s : Stats) (p q : Packet)
    (hnew : idLookup s.ids p.id = none) (hq : q.id = p.id) :
    ∃ m1, (processPacket s p).messages[s.messages.length]? = some m1 ∧
      m1.previous = ({} : Packet) ∧ m1.current = p ∧
      ∃ m2, (processPacket (processPacket s p) q).messages[s.messages.length]? = some m2 ∧
        m2.previous = p ∧ m2.current = q := by
  set dbc := s.dbcs.findIdx? (fun d => p.id ∈ d) with hdbc
  have hmsg1 : (processPacket s p).messages =
      s.messages ++ [slotUpdate p (messageNew p dbc)] :=
    processPacket_messages_miss s p hnew
  refine ⟨slotUpdate p (messageNew p dbc), ?_, rfl, rfl, ?_⟩
  · rw [hmsg1]
    exact List.getElem?_concat_length _ _
  · -- second arrival: the id now resolves to the same slot
    obtain ⟨ext, hids⟩ := processPacket_ids_miss s p hnew
    have hlook : idLookup (processPacket s p).ids q.id = some s.messages.length := by
      rw [hids, hq]
      exact idLookup_append_of_some
        (by rw [idLookup_append_of_none hnew]; simp [idLookup]) ext
    have hmsg2 : (processPacket (processPacket s p) q).messages =
        modifyIdx (processPacket s p).messages s.messages.length (slotUpdate q) :=
      processPacket_messages_hit _ q _ hlook
    refine ⟨slotUpdate q (slotUpdate p (messageNew p dbc)), ?_, rfl, rfl⟩
    rw [hmsg2, hmsg1, modifyIdx_append_length]
    exact List.getElem?_concat_length _ _

/-- C10 (witness): the theorem applied to a fresh engine and two concrete
frames of one identifier. -/
theorem C10_witness :
    ∃ m1,
      (processPacket (statsNew 500000 0)
          { id := 7, time := some 5, bytes := [1] }).messages[0]? = some m1 ∧
      m1.previous = ({} : Packet) ∧
      m1.current = ({ id := 7, time := some 5, bytes := [1] } : Packet) ∧
      ∃ m2,
        (processPacket
            (processPacket (statsNew 500000 0) { id := 7, time := some 5, bytes := [1] })
            { id := 7, time := some 6, bytes := [2] }).messages[0]? = some m2 ∧
        m2.previous = ({ id := 7, time := some 5, bytes := [1] } : Packet) ∧
        m2.current = ({ id := 7, time := some 6, bytes := [2] } : Packet) :=
  C10_previous_default_then_first (statsNew 500000 0) _ _ rfl rfl

/-! ### C5: the two per-message tick paths and staleness clearing -/

/-- C5: on an applied tick, every message slot follows the two-path rule:
with arrivals this tick, the estimated period becomes `1000 / arrivals`
milliseconds and the accumulator clears; with none, and the elapsed time
since the current frame beyond `min(3 * period, 2 s)`, staleness is set to
the elapsed time and the period resets to zero (otherwise the slot is
untouched).  The next processed frame of a registered identifier clears
its staleness back to zero. -/
theorem C5_tick_message_paths :
    (∀ (s : Stats) (now t i : Nat) (m : Message),
      s.time = some t → 1000000000 ≤ now - t → s.messages[i]? = some m →
      ∃ m2, (periodic s now).messages[i]? = some m2 ∧
        (0 < m.count_accum →
          m2 = { m with delta := 1000 / m.count_accum * 1000000, count_accum := 0 }) ∧
        (m.count_accum = 0 → ∀ ft, m.current.time = some ft →
          (min (3 * m.delta) 2000000000 < now - ft →
            m2 = { m with missing := now - ft, delta := 0 }) ∧
          (¬ min (3 * m.delta) 2000000000 < now - ft → m2 = m))) ∧
    (∀ (s : Stats) (p : Packet) (i : Nat),
      idLookup s.ids p.id = some i → i < s.messages.length →
      ∃ j m2, idLookup (processPacket s p).ids p.id = some j ∧
        (processPacket s p).messages[j]? = some m2 ∧ m2.missing = 0) := by
  constructor
  · intro s now t i m ht hge hm
    have hgate : ¬ (now - t) / 1000000000 < 1 := by omega
    have hmsg : (periodic s now).messages = s.messages.map (tickMessage now) := by
      unfold periodic
      rw [ht]
      simp only [Option.getD_some]
      rw [if_neg hgate]
    refine ⟨tickMessage now m, ?_, ?_, ?_⟩
    · rw [hmsg, List.getElem?_map, hm]
      rfl
    · intro hacc
      unfold tickMessage
      rw [if_pos hacc]
    · intro hacc ft hft
      have hacc2 : ¬ 0 < m.count_accum := by omega
      constructor
      · intro hexp
        unfold tickMessage
        rw [if_neg hacc2, hft]
        simp only [Option.getD_some]
        rw [if_pos (by rw [Nat.mul_comm] at hexp; exact hexp)]
      · intro hexp
        unfold tickMessage
        rw [if_neg hacc2, hft]
        simp only [Option.getD_some]
        rw [if_neg (by rw [Nat.mul_comm] at hexp; exact hexp)]
  · intro s p i hlook hlen
    obtain ⟨m, hm⟩ : ∃ m, s.messages[i]? = some m := by
      exact ⟨s.messages[i], List.getElem?_eq_getElem hlen⟩
    obtain ⟨ext, hids⟩ := processPacket_ids_hit s p i hlook
    refine ⟨i, slotUpdate p m, ?_, ?_, rfl⟩
    · rw [hids]
      exact idLookup_append_of_some hlook ext
    · rw [processPacket_messages_hit s p i hlook, getElem?_modifyIdx]
      simp [hm]

/-- C5 (witness): both parts at concrete states: an applied tick over a
slot with three arrivals this tick, and a frame arrival on a registered
identifier clearing staleness. -/
theorem C5_witness :
    (∃ m2,
      (periodic { baud := 1000, time := some 0, messages := [{ count_accum := 3 }] }
          2000000000).messages[0]? = some m2 ∧
        m2 = { ({ count_accum := 3 } : Message) with
               delta := 1000 / 3 * 1000000, count_accum := 0 }) ∧
    (∃ j m2,
      idLookup (processPacket { messages := [{}], ids := [(9, 0)] } { id := 9 }).ids 9 =
        some j ∧
      (processPacket { messages := [{}], ids := [(9, 0)] } { id := 9 }).messages[j]? =
        some m2 ∧
      m2.missing = 0) := by
  constructor
  · obtain ⟨m2, hm2, hA, _hB⟩ := C5_tick_message_paths.1
      { baud := 1000, time := some 0, messages := [{ count_accum := 3 }] }
      2000000000 0 0 { count_accum := 3 } rfl (by decide) rfl
    exact ⟨m2, hm2, hA (by decide)⟩
  · exact C5_tick_message_paths.2 { messages := [{}], ids := [(9, 0)] } { id := 9 } 0 rfl
      (by decide)

/-! ### C9: steady-state convergence of the moving averages -/

theorem emaStep (k x : Nat) (h : ¬ emaNext k x = x) :
    distK k (emaNext k x) < distK k x := by
  unfold emaNext at *
  unfold distK
  split_ifs <;> omega

theorem emaReaches (k x : Nat) :
    ∃ N v, emaNext k v = v ∧ ∀ n, N ≤ n → (emaNext k)^[n] x = v := by
  have main : ∀ d x, distK k x ≤ d →
      ∃ N v, emaNext k v = v ∧ ∀ n, N ≤ n → (emaNext k)^[n] x = v := by
    intro d
    induction d with
    | zero =>
      intro x hx
      have hfix : emaNext k x = x := by
        unfold emaNext
        unfold distK at hx
        split_ifs at hx <;> omega
      exact ⟨0, x, hfix, fun n _ => Function.iterate_fixed hfix n⟩
    | succ d ih =>
      intro x hx
      by_cases hfix : emaNext k x = x
      · exact ⟨0, x, hfix, fun n _ => Function.iterate_fixed hfix n⟩
      · have hlt := emaStep k x hfix
        obtain ⟨N, v, hv, hconv⟩ := ih (emaNext k x) (by omega)
        refine ⟨N + 1, v, hv, ?_⟩
        intro n hn
        obtain ⟨m, rfl⟩ : ∃ m, n = m + 1 := ⟨n - 1, by omega⟩
        rw [Function.iterate_succ_apply]
        exact hconv m (by omega)
  exact main (distK k x) x le_rfl

/-- Shared computation for an applied tick: the channel-level effects of
`periodic` away from `u32` wrap-around. -/
theorem periodic_applied (s : Stats) (now t : Nat) (h : s.time = some t)
    (hge : 1000000000 ≤ now - t) (_hbaud : 1 ≤ s.baud) (hload : s.load < 2 ^ 31)
    (hbytes : s.bytes_accum ≤ 1000000) (hpps : s.pps < 2 ^ 31)
    (hpacc : s.packet_accum < 2 ^ 31) :
    (periodic s now).load = (s.load + 100 * (s.bytes_accum * 10 + 5) / s.baud) / 2 ∧
    (periodic s now).pps = (s.pps + s.packet_accum) / 2 ∧
    (periodic s now).bytes_accum = 0 ∧ (periodic s now).packet_accum = 0 ∧
    (periodic s now).time = some now ∧ (periodic s now).baud = s.baud ∧
    (periodic s now).messages = s.messages.map (tickMessage now) := by
  have hgate : ¬ (now - t) / 1000000000 < 1 := by omega
  unfold periodic
  rw [h]
  simp only [Option.getD_some]
  rw [if_neg hgate]
  have h1 : u32w (s.bytes_accum * 10) = s.bytes_accum * 10 := by
    unfold u32w U32; omega
  have h2 : u32w (s.bytes_accum * 10 + 5) = s.bytes_accum * 10 + 5 := by
    unfold u32w U32; omega
  have h3 : u32w (100 * (s.bytes_accum * 10 + 5)) = 100 * (s.bytes_accum * 10 + 5) := by
    unfold u32w U32; omega
  have h4 : 100 * (s.bytes_accum * 10 + 5) / s.baud ≤ 1000000500 :=
    le_trans (Nat.div_le_self _ _) (by omega)
  have h5 : u32w (s.load + 100 * (s.bytes_accum * 10 + 5) / s.baud) =
      s.load + 100 * (s.bytes_accum * 10 + 5) / s.baud := by
    unfold u32w U32
    exact Nat.mod_eq_of_lt (by omega)
  have h6 : u32w (s.pps + s.packet_accum) = s.pps + s.packet_accum := by
    unfold u32w U32
    exact Nat.mod_eq_of_lt (by omega)
  refine ⟨?_, ?_, rfl, rfl, rfl, rfl, rfl⟩
  · simp only [h1, h2, h3, h5]
  · simp only [h6]

/-- Projections of the steady-state run: on each tick the load and rate
follow the pure smoothing iteration, and stay below 2^31. -/
theorem steadyRun_proj (B F : Nat) (s0 : Stats) (t0 : Nat)
    (ht : s0.time = some t0) (hbaud : 1 ≤ s0.baud) (hload : s0.load < 2 ^ 31)
    (hpps : s0.pps < 2 ^ 31) (hB : B ≤ 1000000) (hF : F < 2 ^ 31) :
    ∀ n, (steadyRun B F s0 t0 n).time = some (t0 + n * 1000000000) ∧
      (steadyRun B F s0 t0 n).baud = s0.baud ∧
      (steadyRun B F s0 t0 n).load =
        (emaNext (100 * (B * 10 + 5) / s0.baud))^[n] s0.load ∧
      (steadyRun B F s0 t0 n).pps = (emaNext F)^[n] s0.pps ∧
      (steadyRun B F s0 t0 n).load < 2 ^ 31 ∧ (steadyRun B F s0 t0 n).pps < 2 ^ 31 := by
  intro n
  induction n with
  | zero =>
    refine ⟨by simpa using ht, rfl, rfl, rfl, hload, hpps⟩
  | succ n ih =>
    obtain ⟨iht, ihbaud, ihload, ihpps, ihloadlt, ihppslt⟩ := ih
    set s := steadyRun B F s0 t0 n with hs
    set s2 : Stats := { s with bytes_accum := B, packet_accum := F } with hs2
    have hs2t : s2.time = some (t0 + n * 1000000000) := iht
    have happ := periodic_applied s2 (t0 + (n + 1) * 1000000000) (t0 + n * 1000000000)
      hs2t (by ring_nf; omega) (by simpa [hs2] using hbaud.trans_eq ihbaud.symm)
      (by simpa [hs2] using ihloadlt) (by simpa [hs2] using hB)
      (by simpa [hs2] using ihppslt) (by simpa [hs2] using hF)
    have hrun : steadyRun B F s0 t0 (n + 1) = periodic s2 (t0 + (n + 1) * 1000000000) := rfl
    obtain ⟨hl, hp, _, _, htm, hbd, _⟩ := happ
    refine ⟨?_, ?_, ?_, ?_, ?_, ?_⟩
    · rw [hrun, htm]
    · rw [hrun, hbd]
      exact ihbaud
    · rw [hrun, hl]
      show (s.load + 100 * (B * 10 + 5) / s.baud) / 2 = _
      rw [ihbaud, ihload, Function.iterate_succ_apply']
      rfl
    · rw [hrun, hp]
      show (s.pps + F) / 2 = _
      rw [ihpps, Function.iterate_succ_apply']
      rfl
    · rw [hrun, hl]
      show (s.load + 100 * (B * 10 + 5) / s.baud) / 2 < 2 ^ 31
      have : 100 * (B * 10 + 5) / s.baud ≤ 1000000500 :=
        le_trans (Nat.div_le_self _ _) (by omega)
      omega
    · rw [hrun, hp]
      show (s.pps + F) / 2 < 2 ^ 31
      omega

/-- C9: under identical per-tick byte and frame counts, the smoothed load
and packet rate reach values that are exact fixed points of the smoothing
formula and stay at them on every further applied tick. -/
theorem C9_steady_state_convergence (s0 : Stats) (t0 B F : Nat)
    (ht : s0.time = some t0) (hbaud : 1 ≤ s0.baud) (hload : s0.load < 2 ^ 31)
    (hpps : s0.pps < 2 ^ 31) (hB : B ≤ 1000000) (hF : F < 2 ^ 31) :
    ∃ N L P, (L + 100 * (B * 10 + 5) / s0.baud) / 2 = L ∧ (P + F) / 2 = P ∧
      ∀ n, N ≤ n →
        (steadyRun B F s0 t0 n).load = L ∧ (steadyRun B F s0 t0 n).pps = P := by
  obtain ⟨N1, L, hLfix, hLconv⟩ := emaReaches (100 * (B * 10 + 5) / s0.baud) s0.load
  obtain ⟨N2, P, hPfix, hPconv⟩ := emaReaches F s0.pps
  refine ⟨max N1 N2, L, P, hLfix, hPfix, ?_⟩
  intro n hn
  obtain ⟨_, _, hl, hp, _, _⟩ := steadyRun_proj B F s0 t0 ht hbaud hload hpps hB hF n
  constructor
  · rw [hl]
    exact hLconv n (le_trans (le_max_left _ _) hn)
  · rw [hp]
    exact hPconv n (le_trans (le_max_right _ _) hn)

/-- C9 (witness): convergence at a concrete channel configuration. -/
theorem C9_witness :
    ∃ N L P, (L + 100 * (0 * 10 + 5) / (100 : Nat)) / 2 = L ∧ (P + 5) / 2 = P ∧
      ∀ n, N ≤ n →
        (steadyRun 0 5 { baud := 100, time := some 0 } 0 n).load = L ∧
        (steadyRun 0 5 { baud := 100, time := some 0 } 0 n).pps = P :=
  C9_steady_state_convergence { baud := 100, time := some 0 } 0 0 5 rfl
    (by decide) (by decide) (by decide) (by decide) (by decide)

/-! ### C2: synchronization of the time origin -/

theorem u64sub_self (t : Nat) : u64sub t t = 0 := by
  unfold u64sub U64
  omega

/-- Shape analysis of `procRowRest` for two stored timestamps at once:
which branch is taken does not depend on the timestamp, the skip and emit
branches return the given state, and the emitted packets differ only in
the stored timestamp. -/
theorem procRowRest_pair (index a b : Nat) (st : LoopSt) (cols : List String)
    (idc dlcc : Nat) :
    (procRowRest index a st cols idc dlcc = .panic ∧
     procRowRest index b st cols idc dlcc = .panic) ∨
    (∃ e, procRowRest index a st cols idc dlcc = .fail e ∧
          procRowRest index b st cols idc dlcc = .fail e) ∨
    (procRowRest index a st cols idc dlcc = .skip st ∧
     procRowRest index b st cols idc dlcc = .skip st) ∨
    (∃ p : Packet, procRowRest index a st cols idc dlcc = .emit { p with time := some a } st ∧
          procRowRest index b st cols idc dlcc = .emit { p with time := some b } st) := by
  unfold procRowRest
  cases cols[idc]? with
  | none => exact Or.inl ⟨rfl, rfl⟩
  | some idS =>
    dsimp only
    cases parseHexWidth? 32 idS with
    | none => exact Or.inr (Or.inl ⟨_, rfl, rfl⟩)
    | some id =>
      dsimp only
      by_cases hid : id = 4294967295
      · rw [if_pos hid, if_pos hid]
        exact Or.inr (Or.inr (Or.inl ⟨rfl, rfl⟩))
      · rw [if_neg hid, if_neg hid]
        cases cols[dlcc]? with
        | none => exact Or.inl ⟨rfl, rfl⟩
        | some dlcS =>
          dsimp only
          cases parseHexWidth? 64 dlcS with
          | none => exact Or.inr (Or.inl ⟨_, rfl, rfl⟩)
          | some dlc =>
            dsimp only
            by_cases hsk : cols.length < dlcc + 1 + dlc ∨
                (0 < dlc ∧ cols.getD (dlcc + 1) ("") = "RTR")
            · rw [if_pos hsk, if_pos hsk]
              exact Or.inr (Or.inr (Or.inl ⟨rfl, rfl⟩))
            · rw [if_neg hsk, if_neg hsk]
              exact Or.inr (Or.inr (Or.inr
                ⟨⟨index, none, decide (4 < idS.length), id,
                  (List.range dlc).map
                    (fun i => (parseHexWidth? 8 (cols.getD (dlcc + 1 + i) (""))).getD 0)⟩,
                 rfl, rfl⟩))

/-- Relation between a synchronized and an unsynchronized run over one
data row: identical outcomes, except that the emitted packet's timestamp
is shifted by what is by then the recorded first timestamp. -/
theorem procRow_sync (index : Nat) (st : LoopSt) (cols : List String)
    (idc dlcc tns : Nat) :
    procRow index true st cols idc dlcc tns =
      match procRow index false st cols idc dlcc tns with
      | .panic => .panic
      | .fail e => .fail e
      | .skip st2 => .skip st2
      | .emit p st2 => .emit (shiftTime (st2.firstTime.getD 0) p) st2 := by
  cases hft : st.firstTime with
  | none =>
    have hl : procRow index true st cols idc dlcc tns =
        procRowRest index 0 { st with firstTime := some tns } cols idc dlcc := by
      unfold procRow
      rw [hft]
      rfl
    have hr : procRow index false st cols idc dlcc tns =
        procRowRest index tns { st with firstTime := some tns } cols idc dlcc := by
      unfold procRow
      rw [hft]
      rfl
    rw [hl, hr]
    rcases procRowRest_pair index 0 tns { st with firstTime := some tns } cols idc dlcc with
      ⟨h1, h2⟩ | ⟨e, h1, h2⟩ | ⟨h1, h2⟩ | ⟨p, h1, h2⟩
    · rw [h1, h2]
    · rw [h1, h2]
    · rw [h1, h2]
    · rw [h1, h2]
      simp [shiftTime, u64sub_self]
  | some t =>
    have hl : procRow index true st cols idc dlcc tns =
        procRowRest index (u64sub tns t) st cols idc dlcc := by
      unfold procRow
      rw [hft]
      rfl
    have hr : procRow index false st cols idc dlcc tns =
        procRowRest index tns st cols idc dlcc := by
      unfold procRow
      rw [hft]
      rfl
    rw [hl, hr]
    rcases procRowRest_pair index (u64sub tns t) tns st cols idc dlcc with
      ⟨h1, h2⟩ | ⟨e, h1, h2⟩ | ⟨h1, h2⟩ | ⟨p, h1, h2⟩
    · rw [h1, h2]
    · rw [h1, h2]
    · rw [h1, h2]
    · rw [h1, h2]
      simp [shiftTime, hft]

/-- In both branches of `procRow`, the state coming out of a skip or emit
is the input state with `firstTime` forced to `some`. -/
theorem procRow_state (index : Nat) (sync : Bool) (st : LoopSt) (cols : List String)
    (idc dlcc tns : Nat) :
    (∀ st2, procRow index sync st cols idc dlcc tns = .skip st2 →
      st2.version = st.version ∧ st2.columns = st.columns ∧
      st2.firstTime = some (st.firstTime.getD tns)) ∧
    (∀ p st2, procRow index sync st cols idc dlcc tns = .emit p st2 →
      st2.version = st.version ∧ st2.columns = st.columns ∧
      st2.firstTime = some (st.firstTime.getD tns)) := by
  cases hft : st.firstTime with
  | none =>
    have hl : procRow index sync st cols idc dlcc tns =
        procRowRest index (if sync then 0 else tns) { st with firstTime := some tns }
          cols idc dlcc := by
      unfold procRow
      rw [hft]
    rw [hl]
    rcases procRowRest_pair index (if sync then 0 else tns) 0
        { st with firstTime := some tns } cols idc dlcc with
      ⟨h1, _⟩ | ⟨e, h1, _⟩ | ⟨h1, _⟩ | ⟨p, h1, _⟩ <;>
      rw [h1] <;>
      refine ⟨fun st2 hs => ?_, fun p2 st2 hs => ?_⟩ <;>
      first
        | (cases hs; exact ⟨rfl, rfl, rfl⟩)
        | cases hs
  | some t =>
    have hl : procRow index sync st cols idc dlcc tns =
        procRowRest index (if sync then u64sub tns t else tns) st cols idc dlcc := by
      unfold procRow
      rw [hft]
    rw [hl]
    rcases procRowRest_pair index (if sync then u64sub tns t else tns) 0 st cols idc dlcc with
      ⟨h1, _⟩ | ⟨e, h1, _⟩ | ⟨h1, _⟩ | ⟨p, h1, _⟩ <;>
      rw [h1] <;>
      refine ⟨fun st2 hs => ?_, fun p2 st2 hs => ?_⟩ <;>
      first
        | (cases hs; exact ⟨rfl, rfl, hft⟩)
        | cases hs

/-- A directive line either skips (with a possibly updated dialect or
columns value, never touching `firstTime`) or fails. -/
theorem procDirective_cases (st : LoopSt) (line : String) :
    (∃ st2, procDirective st line = .skip st2 ∧ st2.firstTime = st.firstTime) ∨
    (∃ e, procDirective st line = .fail e) := by
  unfold procDirective
  by_cases hlen : (splitOnEq line).length < 2
  · rw [if_pos hlen]
    exact Or.inr ⟨_, rfl⟩
  · rw [if_neg hlen]
    dsimp only
    split
    · split
      · exact Or.inl ⟨_, rfl, rfl⟩
      · exact Or.inl ⟨_, rfl, rfl⟩
      · exact Or.inl ⟨_, rfl, rfl⟩
      · exact Or.inl ⟨_, rfl, rfl⟩
      · exact Or.inr ⟨_, rfl⟩
    · exact Or.inl ⟨_, rfl, rfl⟩
    · exact Or.inl ⟨_, rfl, rfl⟩
    · exact Or.inl ⟨_, rfl, rfl⟩

/-- Relation between a synchronized and an unsynchronized run over one
input line. -/
theorem procLine_sync (index : Nat) (st : LoopSt) (line : String) :
    procLine index true st line =
      match procLine index false st line with
      | .panic => .panic
      | .fail e => .fail e
      | .skip st2 => .skip st2
      | .emit p st2 => .emit (shiftTime (st2.firstTime.getD 0) p) st2 := by
  unfold procLine
  by_cases hd : strStartsWith line (";$") = true
  · rw [if_pos hd, if_pos hd]
    rcases procDirective_cases st line with ⟨st2, h, _⟩ | ⟨e, h⟩ <;> rw [h]
  · rw [if_neg hd, if_neg hd]
    by_cases hc : strStartsWith line (";") = true
    · rw [if_pos hc, if_pos hc]
    · rw [if_neg hc, if_neg hc]
      dsimp only
      by_cases he : (splitWs line).isEmpty = true
      · rw [if_pos he, if_pos he]
      · rw [if_neg he, if_neg he]
        cases st.version <;> dsimp only
        ·
          cases (splitWs line)[1]? with
          | none => rfl
          | some s1 =>
            dsimp only
            cases int_ns? s1 with
            | none => rfl
            | some tns =>
              dsimp only
              exact procRow_sync index st (splitWs line) 2 3 tns
        ·
          cases (splitWs line)[1]? with
          | none => rfl
          | some s1 =>
            dsimp only
            cases float_ns? s1 with
            | none => rfl
            | some tns =>
              dsimp only
              exact procRow_sync index st (splitWs line) 3 4 tns
        ·
          cases (splitWs line)[1]? with
          | none => rfl
          | some s1 =>
            dsimp only
            cases float_ns? s1 with
            | none => rfl
            | some tns =>
              dsimp only
              exact procRow_sync index st (splitWs line) 4 6 tns
        all_goals (
          by_cases h6 : (splitWs line).length < 6
          · rw [if_pos h6, if_pos h6]
          · rw [if_neg h6, if_neg h6]
            cases (splitWs line)[(v2cols st.columns).2 + 1]? with
            | none => rfl
            | some cnext =>
              dsimp only
              by_cases hrtr : cnext = "RTR"
              · rw [if_pos hrtr, if_pos hrtr]
              · rw [if_neg hrtr, if_neg hrtr]
                by_cases hty : ¬ (splitWs line).getD 2 ("") = "DT" ∧
                    ¬ (splitWs line).getD 2 ("") = "FD"
                · rw [if_pos hty, if_pos hty]
                · rw [if_neg hty, if_neg hty]
                  cases (splitWs line)[1]? with
                  | none => rfl
                  | some s1 =>
                    dsimp only
                    cases float_ns? s1 with
                    | none => rfl
                    | some tns =>
                      dsimp only
                      exact procRow_sync index st (splitWs line)
                        (v2cols st.columns).1 (v2cols st.columns).2 tns)

/-- State tracking over one line, for either synchronization mode: a skip
preserves a known first timestamp, and an emitted packet guarantees the
first timestamp is recorded. -/
theorem procLine_state (index : Nat) (sync : Bool) (st : LoopSt) (line : String) :
    (∀ st2, procLine index sync st line = .skip st2 →
      ∀ t, st.firstTime = some t → st2.firstTime = some t) ∧
    (∀ p st2, procLine index sync st line = .emit p st2 →
      (∃ u, st2.firstTime = some u) ∧
      ∀ t, st.firstTime = some t → st2.firstTime = some t) := by
  unfold procLine
  by_cases hd : strStartsWith line (";$") = true
  · rw [if_pos hd]
    rcases procDirective_cases st line with ⟨st2, h, hft⟩ | ⟨e, h⟩ <;> rw [h]
    · refine ⟨fun st3 hs => ?_, fun p st3 hs => ?_⟩
      · cases hs
        intro t ht
        rw [hft, ht]
      · cases hs
    · exact ⟨fun st3 hs => (by cases hs), fun p st3 hs => (by cases hs)⟩
  · rw [if_neg hd]
    by_cases hc : strStartsWith line (";") = true
    · rw [if_pos hc]
      refine ⟨fun st3 hs => ?_, fun p st3 hs => ?_⟩
      · cases hs
        exact fun t ht => ht
      · cases hs
    · rw [if_neg hc]
      dsimp only
      by_cases he : (splitWs line).isEmpty = true
      · rw [if_pos he]
        refine ⟨fun st3 hs => ?_, fun p st3 hs => ?_⟩
        · cases hs
          exact fun t ht => ht
        · cases hs
      · rw [if_neg he]
        have hrow : ∀ (idc dlcc tns : Nat),
            (∀ st2, procRow index sync st (splitWs line) idc dlcc tns = .skip st2 →
              ∀ t, st.firstTime = some t → st2.firstTime = some t) ∧
            (∀ p st2, procRow index sync st (splitWs line) idc dlcc tns = .emit p st2 →
              (∃ u, st2.firstTime = some u) ∧
              ∀ t, st.firstTime = some t → st2.firstTime = some t) := by
          intro idc dlcc tns
          obtain ⟨hskip, hemit⟩ := procRow_state index sync st (splitWs line) idc dlcc tns
          refine ⟨fun st2 hs => ?_, fun p st2 hs => ?_⟩
          · obtain ⟨_, _, hft⟩ := hskip st2 hs
            intro t ht
            rw [hft, ht]
            rfl
          · obtain ⟨_, _, hft⟩ := hemit p st2 hs
            refine ⟨⟨_, hft⟩, fun t ht => ?_⟩
            rw [hft, ht]
            rfl
        cases st.version <;> dsimp only
        · cases (splitWs line)[1]? with
          | none => exact ⟨fun st3 hs => (by cases hs), fun p st3 hs => (by cases hs)⟩
          | some s1 =>
            dsimp only
            cases int_ns? s1 with
            | none => exact ⟨fun st3 hs => (by cases hs), fun p st3 hs => (by cases hs)⟩
            | some tns => exact hrow 2 3 tns
        · cases (splitWs line)[1]? with
          | none => exact ⟨fun st3 hs => (by cases hs), fun p st3 hs => (by cases hs)⟩
          | some s1 =>
            dsimp only
            cases float_ns? s1 with
            | none => exact ⟨fun st3 hs => (by cases hs), fun p st3 hs => (by cases hs)⟩
            | some tns => exact hrow 3 4 tns
        · cases (splitWs line)[1]? with
          | none => exact ⟨fun st3 hs => (by cases hs), fun p st3 hs => (by cases hs)⟩
          | some s1 =>
            dsimp only
            cases float_ns? s1 with
            | none => exact ⟨fun st3 hs => (by cases hs), fun p st3 hs => (by cases hs)⟩
            | some tns => exact hrow 4 6 tns
        all_goals (
          by_cases h6 : (splitWs line).length < 6
          · rw [if_pos h6]
            refine ⟨fun st3 hs => ?_, fun p st3 hs => ?_⟩
            · cases hs
              exact fun t ht => ht
            · cases hs
          · rw [if_neg h6]
            cases (splitWs line)[(v2cols st.columns).2 + 1]? with
            | none => exact ⟨fun st3 hs => (by cases hs), fun p st3 hs => (by cases hs)⟩
            | some cnext =>
              dsimp only
              by_cases hrtr : cnext = "RTR"
              · rw [if_pos hrtr]
                refine ⟨fun st3 hs => ?_, fun p st3 hs => ?_⟩
                · cases hs
                  exact fun t ht => ht
                · cases hs
              · rw [if_neg hrtr]
                by_cases hty : ¬ (splitWs line).getD 2 ("") = "DT" ∧
                    ¬ (splitWs line).getD 2 ("") = "FD"
                · rw [if_pos hty]
                  refine ⟨fun st3 hs => ?_, fun p st3 hs => ?_⟩
                  · cases hs
                    exact fun t ht => ht
                  · cases hs
                · rw [if_neg hty]
                  cases (splitWs line)[1]? with
                  | none => exact ⟨fun st3 hs => (by cases hs), fun p st3 hs => (by cases hs)⟩
                  | some s1 =>
                    dsimp only
                    cases float_ns? s1 with
                    | none =>
                      exact ⟨fun st3 hs => (by cases hs), fun p st3 hs => (by cases hs)⟩
                    | some tns => exact hrow (v2cols st.columns).1 (v2cols st.columns).2 tns)

/-- Once recorded, the first timestamp survives to the end of a
successful parse. -/
theorem trcGo_firstTime (index : Nat) (sync : Bool) (lines : List String) :
    ∀ (st : LoopSt) (t : Nat) (ps : List Packet) (stf : LoopSt),
      st.firstTime = some t → trcGo index sync lines st = some (.ok (ps, stf)) →
      stf.firstTime = some t := by
  induction lines with
  | nil =>
    intro st t ps stf h hgo
    unfold trcGo at hgo
    simp only [Option.some.injEq, Except.ok.injEq, Prod.mk.injEq] at hgo
    obtain ⟨-, h2⟩ := hgo
    rw [← h2]
    exact h
  | cons line rest ih =>
    intro st t ps stf h hgo
    unfold trcGo at hgo
    cases hpl : procLine index sync st line with
    | panic =>
      rw [hpl] at hgo
      exact Option.noConfusion hgo
    | fail e =>
      rw [hpl] at hgo
      simp only [Option.some.injEq] at hgo
      exact Except.noConfusion hgo
    | skip st2 =>
      rw [hpl] at hgo
      exact ih st2 t ps stf ((procLine_state index sync st line).1 st2 hpl t h) hgo
    | emit p st2 =>
      rw [hpl] at hgo
      dsimp only at hgo
      cases hrec : trcGo index sync rest st2 with
      | none =>
        rw [hrec] at hgo
        exact Option.noConfusion hgo
      | some r =>
        rw [hrec] at hgo
        cases r with
        | error e =>
          simp only [Option.map_some', Except.map, Option.some.injEq] at hgo
          exact Except.noConfusion hgo
        | ok x =>
          simp only [Option.map_some', Except.map, Option.some.injEq, Except.ok.injEq,
            Prod.mk.injEq] at hgo
          obtain ⟨-, h2⟩ := hgo
          rw [← h2]
          exact ih st2 t x.1 x.2
            (((procLine_state index sync st line).2 p st2 hpl).2 t h) hrec

/-- Relation between a synchronized and an unsynchronized parse: identical
outcomes, with every emitted timestamp shifted by the recorded first
timestamp. -/
theorem trcGo_sync (index : Nat) (lines : List String) :
    ∀ st : LoopSt,
      trcGo index true lines st =
        Option.map (Except.map (fun x =>
          (x.1.map (shiftTime (x.2.firstTime.getD 0)), x.2)))
          (trcGo index false lines st) := by
  induction lines with
  | nil =>
    intro st
    rfl
  | cons line rest ih =>
    intro st
    unfold trcGo
    rw [procLine_sync index st line]
    cases hpl : procLine index false st line with
    | panic => rfl
    | fail e => rfl
    | skip st2 => exact ih st2
    | emit p st2 =>
      dsimp only
      rw [ih st2]
      cases hrec : trcGo index false rest st2 with
      | none => rfl
      | some r =>
        cases r with
        | error e => rfl
        | ok x =>
          obtain ⟨u, hu⟩ := ((procLine_state index false st line).2 p st2 hpl).1
          have hstf : x.2.firstTime = some u :=
            trcGo_firstTime index false rest st2 u x.1 x.2 hu hrec
          simp only [Option.map_some', Except.map, List.map_cons]
          rw [hu, hstf]

/-- C2 (counterexample): with `synchronize_origin = true`, a skipped
all-ones status row whose timestamp parses becomes the zero reference, so
the first emitted frame's timestamp is its offset from that row
(10 000 000 ns here), not zero as claimed. -/
theorem C2_counterexample :
    trcParse [("1) A FFFFFFFF 0"), ("2) 14 100 0")] 0 true =
      some (.ok [{ source := 0, time := some 10000000, extended := false,
                   id := 256, bytes := [] }]) ∧
    ¬ ((10000000 : Nat) = 0) := by
  constructor
  · with_unfolding_all rfl
  · decide

/-- C2 (amended): for every input, parsing with `synchronize_origin =
true` gives exactly the packets of the unsynchronized parse with every
timestamp shifted (wrapping `u64` subtraction) by the first successfully
parsed row timestamp — the `firstTime` recorded in the final loop state,
which may come from a row that was later skipped; errors and panics are
identical in the two modes.  With `synchronize_origin = false`, emitted
timestamps are the unmodified file-relative offsets. -/
theorem C2_sync_shift (lines : List String) (index : Nat) (ps : List Packet)
    (stf : LoopSt) (h : trcGo index false lines {} = some (.ok (ps, stf))) :
    trcParse lines index false = some (.ok ps) ∧
    trcParse lines index true = some (.ok (ps.map (shiftTime (stf.firstTime.getD 0)))) := by
  constructor
  · unfold trcParse
    rw [h]
    rfl
  · unfold trcParse
    rw [trcGo_sync index lines ({} : LoopSt), h]
    rfl

/-- C2 (witness): the amended theorem at the counterexample input, where
the first parsed (skipped) row has timestamp 10 000 000 ns. -/
theorem C2_witness :
    trcParse [("1) A FFFFFFFF 0"), ("2) 14 100 0")] 0 false =
      some (.ok [{ source := 0, time := some 20000000, extended := false,
                   id := 256, bytes := [] }]) ∧
    trcParse [("1) A FFFFFFFF 0"), ("2) 14 100 0")] 0 true =
      some (.ok ([({ source := 0, time := some 20000000, extended := false,
                     id := 256, bytes := [] } : Packet)].map (shiftTime 10000000))) :=
  C2_sync_shift [("1) A FFFFFFFF 0"), ("2) 14 100 0")] 0
    [{ source := 0, time := some 20000000, extended := false, id := 256, bytes := [] }]
    { version := .V1_0, columns := "", firstTime := some 10000000 }
    (by with_unfolding_all rfl)

/-! ### Correctness of the f32 rounding model -/

theorem log2fuel_bounds : ∀ (fuel n : Nat), n ≤ fuel → 1 ≤ n →
    2 ^ log2fuel fuel n ≤ n ∧ n < 2 ^ (log2fuel fuel n + 1) := by
  intro fuel
  induction fuel with
  | zero =>
    intro n h1 h2
    omega
  | succ fuel ih =>
    intro n hle h1
    unfold log2fuel
    by_cases h2 : 2 ≤ n
    · rw [if_pos h2]
      obtain ⟨b1, b2⟩ := ih (n / 2) (by omega) (by omega)
      set L := log2fuel fuel (n / 2) with hL
      have e1 : (2:ℕ) ^ (L + 1) = 2 * 2 ^ L := by
        rw [pow_succ]
        ring
      have e2 : (2:ℕ) ^ (L + 1 + 1) = 2 * 2 ^ (L + 1) := by
        rw [pow_succ]
        ring
      constructor
      · omega
      · omega
    · rw [if_neg h2]
      constructor
      · simpa using h1
      · have : n < 2 := by omega
        simpa using this

theorem natLog2_bounds (n : Nat) (h : 1 ≤ n) :
    2 ^ natLog2 n ≤ n ∧ n < 2 ^ (natLog2 n + 1) :=
  log2fuel_bounds n n le_rfl h

theorem rhe_bounds (x : ℚ) : x - 1 / 2 ≤ (rhe x : ℚ) ∧ (rhe x : ℚ) ≤ x + 1 / 2 := by
  unfold rhe
  have hf1 : (⌊x⌋ : ℚ) ≤ x := Int.floor_le x
  have hf2 : x < ⌊x⌋ + 1 := Int.lt_floor_add_one x
  dsimp only
  split_ifs <;> constructor <;> push_cast <;> linarith

theorem rhe_intCast (m : ℤ) : rhe (m : ℚ) = m := by
  unfold rhe
  rw [Int.floor_intCast]
  norm_num

/-- For arguments at least one, the binary exponent search succeeds and
brackets the argument. -/
theorem floorLog2_ge_one (q : ℚ) (h : 1 ≤ q) :
    ∃ e : ℕ, floorLog2? q = some (e : ℤ) ∧ (2 : ℚ) ^ e ≤ q ∧ q < 2 ^ (e + 1) := by
  have hfl : (1 : ℤ) ≤ ⌊q⌋ := Int.le_floor.mpr (by exact_mod_cast h)
  have hm1 : 1 ≤ ⌊q⌋.toNat := by omega
  obtain ⟨b1, b2⟩ := natLog2_bounds ⌊q⌋.toNat hm1
  have hmq : ((⌊q⌋.toNat : ℤ) : ℚ) = (⌊q⌋ : ℚ) := by
    congr 1
    omega
  refine ⟨natLog2 ⌊q⌋.toNat, ?_, ?_, ?_⟩
  · unfold floorLog2?
    rw [if_pos h]
  · calc ((2:ℚ) ^ natLog2 ⌊q⌋.toNat) = ((2 ^ natLog2 ⌊q⌋.toNat : ℕ) : ℚ) := by push_cast; rfl
    _ ≤ ((⌊q⌋.toNat : ℕ) : ℚ) := by exact_mod_cast b1
    _ = (⌊q⌋ : ℚ) := by rw [← hmq]; push_cast; rfl
    _ ≤ q := Int.floor_le q
  · calc q < ⌊q⌋ + 1 := Int.lt_floor_add_one q
    _ = ((⌊q⌋.toNat : ℤ) : ℚ) + 1 := by rw [hmq]
    _ ≤ ((2 ^ (natLog2 ⌊q⌋.toNat + 1) : ℕ) : ℚ) := by exact_mod_cast b2
    _ = 2 ^ (natLog2 ⌊q⌋.toNat + 1) := by push_cast; rfl

/-- Error bound of the rounding model for arguments at least one: within
half a unit in the last place of the 24-bit significand. -/
theorem roundF32pos_bounds (q : ℚ) (h : 1 ≤ q) :
    ∃ e : ℕ, (2:ℚ) ^ e ≤ q ∧ q < 2 ^ (e + 1) ∧
      q - 2 ^ e / 2 ^ 24 ≤ roundF32pos q ∧ roundF32pos q ≤ q + 2 ^ e / 2 ^ 24 := by
  obtain ⟨e, hsome, hb1, hb2⟩ := floorLog2_ge_one q h
  refine ⟨e, hb1, hb2, ?_, ?_⟩ <;>
  · unfold roundF32pos
    rw [hsome]
    have hzp : ((2:ℚ) ^ ((23 : ℤ) - e)) * (2 ^ ((e : ℤ) - 23)) = 1 := by
      rw [← zpow_add₀ (two_ne_zero)]
      norm_num
    have hpos : (0:ℚ) < (2:ℚ) ^ ((e : ℤ) - 23) := zpow_pos (by norm_num) _
    have hval : (2:ℚ) ^ ((e : ℤ) - 23) = 2 ^ e / 2 ^ 23 := by
      rw [zpow_sub₀ (two_ne_zero), zpow_natCast]
      norm_num
    obtain ⟨hr1, hr2⟩ := rhe_bounds (q * 2 ^ ((23 : ℤ) - e))
    nlinarith [hr1, hr2, hpos, hzp, hval,
      mul_le_mul_of_nonneg_right hr1 (le_of_lt hpos),
      mul_le_mul_of_nonneg_right hr2 (le_of_lt hpos)]

theorem roundF32pos_natCast (n : ℕ) (h1 : 1 ≤ n) (h : n < 2 ^ 24) :
    roundF32pos (n : ℚ) = n := by
  have hq1 : (1:ℚ) ≤ (n : ℚ) := by exact_mod_cast h1
  unfold roundF32pos floorLog2?
  rw [if_pos hq1]
  have hfl : ⌊(n : ℚ)⌋ = (n : ℤ) := Int.floor_natCast n
  rw [hfl]
  simp only [Int.toNat_natCast]
  have hb := natLog2_bounds n h1
  have he23 : natLog2 n ≤ 23 := by
    by_contra hgt
    have h24 : (2:ℕ) ^ 24 ≤ 2 ^ natLog2 n :=
      Nat.pow_le_pow_right (by norm_num) (by omega)
    omega
  set e := natLog2 n with he
  have hz : (2:ℚ) ^ ((23:ℤ) - e) = ((2 ^ (23 - e) : ℕ) : ℚ) := by
    rw [show ((23:ℤ) - e) = ((23 - e : ℕ) : ℤ) by omega, zpow_natCast]
    push_cast
    rfl
  have hcast : (n : ℚ) * 2 ^ ((23:ℤ) - e) = (((n * 2 ^ (23 - e) : ℕ) : ℤ) : ℚ) := by
    rw [hz]
    push_cast
    ring
  rw [hcast, rhe_intCast]
  have hsplit : (((n * 2 ^ (23 - e) : ℕ) : ℤ) : ℚ) = (n : ℚ) * 2 ^ ((23:ℤ) - e) := by
    rw [hcast]
  rw [hsplit]
  have hzp : ((2:ℚ) ^ ((23 : ℤ) - e)) * (2 ^ ((e : ℤ) - 23)) = 1 := by
    rw [← zpow_add₀ (two_ne_zero)]
    norm_num
  calc (n : ℚ) * 2 ^ ((23:ℤ) - e) * 2 ^ ((e:ℤ) - 23)
      = (n : ℚ) * (2 ^ ((23:ℤ) - e) * 2 ^ ((e:ℤ) - 23)) := by ring
    _ = n := by rw [hzp]; ring

theorem roundF32_natCast (n : ℕ) (h : n < 2 ^ 24) : roundF32 (n : ℚ) = n := by
  rcases Nat.eq_zero_or_pos n with rfl | hpos
  · simp [roundF32]
  · unfold roundF32
    have hne : (n : ℚ) ≠ 0 := by
      exact_mod_cast Nat.pos_iff_ne_zero.mp hpos
    have hgt : (0:ℚ) < n := by exact_mod_cast hpos
    rw [if_neg hne, if_pos hgt]
    exact roundF32pos_natCast n hpos h

theorem roundF32_intCast (m : ℤ) (h : m.natAbs < 2 ^ 24) : roundF32 (m : ℚ) = m := by
  rcases le_or_lt 0 m with hm | hm
  · lift m to ℕ using hm with n
    have hn : n < 2 ^ 24 := by simpa using h
    have hcast := roundF32_natCast n hn
    push_cast at hcast ⊢
    exact hcast
  · have hpos : 1 ≤ (-m).toNat := by omega
    have habs : ((-m).toNat : ℚ) = -(m : ℚ) := by
      have : ((-m).toNat : ℤ) = -m := Int.toNat_of_nonneg (by omega)
      exact_mod_cast this
    unfold roundF32
    have hne : (m : ℚ) ≠ 0 := by
      intro hz
      have : m = 0 := by exact_mod_cast hz
      omega
    have hnpos : ¬ (0:ℚ) < (m : ℚ) := by
      push_neg
      exact_mod_cast le_of_lt hm
    rw [if_neg hne, if_neg hnpos]
    rw [show -(m:ℚ) = ((-m).toNat : ℚ) from habs.symm]
    rw [roundF32pos_natCast (-m).toNat hpos (by omega)]
    rw [habs]
    ring

/-! ### C3: timestamp conversion truncates fractional milliseconds -/

/-- Truncating the rounded value of a decimal with a clearly fractional
part below 2^16 recovers exactly the integer part. -/
theorem roundF32_floor_small (a : ℕ) (q : ℚ) (h1 : 1 ≤ a) (ha : a < 65536)
    (hlo : (a : ℚ) + 1 / 256 ≤ q) (hhi : q ≤ (a : ℚ) + 1 - 1 / 128) :
    ⌊roundF32 q⌋ = a := by
  have ha1 : (1:ℚ) ≤ (a : ℚ) := by exact_mod_cast h1
  have hq1 : (1:ℚ) ≤ q := by linarith
  have hne : q ≠ 0 := by intro hz; rw [hz] at hq1; linarith
  have hqpos : (0:ℚ) < q := by linarith
  unfold roundF32
  rw [if_neg hne, if_pos hqpos]
  obtain ⟨e, he1, he2, hb1, hb2⟩ := roundF32pos_bounds q hq1
  have haq : (a : ℚ) < 65536 := by exact_mod_cast ha
  have he16 : e ≤ 16 := by
    by_contra hgt
    have h17 : (2:ℚ) ^ 17 ≤ 2 ^ e := by
      apply pow_le_pow_right₀ (by norm_num)
      omega
    have : (131072 : ℚ) ≤ q := by
      calc (131072 : ℚ) = 2 ^ 17 := by norm_num
      _ ≤ 2 ^ e := h17
      _ ≤ q := he1
    linarith
  have herr : (2:ℚ) ^ e / 2 ^ 24 ≤ 1 / 256 := by
    have : (2:ℚ) ^ e ≤ 2 ^ 16 := pow_le_pow_right₀ (by norm_num) he16
    rw [div_le_div_iff₀ (by positivity) (by norm_num)]
    nlinarith
  have hge : (a : ℚ) ≤ roundF32pos q := by linarith
  have hlt : roundF32pos q < (a : ℚ) + 1 := by linarith
  have : ⌊roundF32pos q⌋ = (a : ℤ) := by
    rw [Int.floor_eq_iff]
    constructor
    · exact_mod_cast hge
    · push_cast
      exact hlt
  exact_mod_cast this

/-- Truncation at the `float_ns` level: parsing a decimal literal with
integer part `a` and a genuinely fractional remainder yields `a`
milliseconds scaled to nanoseconds. -/
theorem float_ns_truncates (s : String) (a : ℕ) (q : ℚ)
    (h : parseF32? s = some (.fin q)) (h1 : 1 ≤ a) (ha : a < 65536)
    (hlo : (a : ℚ) + 1 / 256 ≤ q) (hhi : q ≤ (a : ℚ) + 1 - 1 / 128) :
    float_ns? s = some (a * 1000000) := by
  unfold float_ns?
  rw [h]
  have hfloor := roundF32_floor_small a q h1 ha hlo hhi
  have ha1 : (1:ℚ) ≤ (a : ℚ) := by exact_mod_cast h1
  have hq1 : (1:ℚ) ≤ q := by linarith
  have hrnonneg : ¬ roundF32 q < 0 := by
    push_neg
    have := Int.floor_le (roundF32 q)
    rw [hfloor] at this
    have hcast : (0:ℚ) ≤ ((a : ℤ) : ℚ) := by positivity
    linarith
  simp only [Option.map_some', Option.some.injEq]
  unfold satU64trunc
  dsimp only
  rw [if_neg hrnonneg, hfloor]
  have hmin : min ((a : ℤ).toNat) (U64 - 1) = a := by
    unfold U64
    omega
  rw [hmin]
  unfold u64w U64
  have : a * 1000000 < 18446744073709551616 := by omega
  omega

/-- C3 (counterexample): in dialect 1.1 the fractional-millisecond field
`17535.4` produces 17 535 000 000 ns — the fractional part is truncated by
the `as u64` cast before scaling — not the claimed 17 535 400 000 ns. -/
theorem C3_counterexample :
    trcParse [(";$FILEVERSION=1.1"), ("1) 17535.4 Tx 100 0")] 0 false =
      some (.ok [{ source := 0, time := some 17535000000, extended := false,
                   id := 256, bytes := [] }]) ∧
    ¬ ((17535000000 : Nat) = 17535400000) := by
  constructor
  · with_unfolding_all rfl
  · decide

/-- C3 (amended): dialect 1.0 parses the time field as base-16 and
multiplies by 1 000 000; every other dialect parses it as a decimal float,
truncates it to a whole number of milliseconds with the `as u64` cast, and
then multiplies by 1 000 000 — so 17535.4 ms yields 17 535 000 000 ns.
The general conjunct covers every literal with integer part `a` below 2^16
and a fractional remainder in [1/256, 1 - 1/128]. -/
theorem C3_time_conversion (s : String) (a : ℕ) (q : ℚ)
    (h : parseF32? s = some (.fin q)) (h1 : 1 ≤ a) (ha : a < 65536)
    (hlo : (a : ℚ) + 1 / 256 ≤ q) (hhi : q ≤ (a : ℚ) + 1 - 1 / 128) :
    float_ns? s = some (a * 1000000) ∧
    int_ns? ("1B") = some 27000000 ∧
    trcParse [("1) 1B 100 2 AA BB")] 0 false =
      some (.ok [{ source := 0, time := some 27000000, extended := false,
                   id := 256, bytes := [170, 187] }]) ∧
    trcParse [(";$FILEVERSION=1.1"), ("1) 17535.4 Tx 100 0")] 0 false =
      some (.ok [{ source := 0, time := some 17535000000, extended := false,
                   id := 256, bytes := [] }]) := by
  refine ⟨float_ns_truncates s a q h h1 ha hlo hhi, ?_, ?_, ?_⟩
  · with_unfolding_all rfl
  · with_unfolding_all rfl
  · with_unfolding_all rfl

/-- C3 (witness): the amended theorem at the literal `17535.4`. -/
theorem C3_witness :
    float_ns? ("17535.4") = some (17535 * 1000000) ∧
    int_ns? ("1B") = some 27000000 ∧
    trcParse [("1) 1B 100 2 AA BB")] 0 false =
      some (.ok [{ source := 0, time := some 27000000, extended := false,
                   id := 256, bytes := [170, 187] }]) ∧
    trcParse [(";$FILEVERSION=1.1"), ("1) 17535.4 Tx 100 0")] 0 false =
      some (.ok [{ source := 0, time := some 17535000000, extended := false,
                   id := 256, bytes := [] }]) :=
  C3_time_conversion ("17535.4") 17535 (175354 / 10)
    (by with_unfolding_all rfl) (by decide) (by decide)
    (by norm_num) (by norm_num)

/-! ### C8: asymmetric signal formatting -/

theorem bitsToNatLE_append (xs : List Bool) (y : Bool) :
    bitsToNatLE (xs ++ [y]) = bitsToNatLE xs + (if y then 1 else 0) * 2 ^ xs.length := by
  induction xs with
  | nil => cases y <;> simp [bitsToNatLE]
  | cons a xs ih =>
    have hstep : ∀ (b : Bool) (l : List Bool),
        bitsToNatLE (b :: l) = bitsToNatLE l * 2 + (if b then 1 else 0) := by
      intro b l
      rfl
    rw [List.cons_append, hstep, hstep, ih]
    have hp : (2:ℕ) ^ (a :: xs).length = 2 ^ xs.length * 2 := by
      simp [List.length_cons, pow_succ]
    rw [hp]
    ring

theorem testBit_range_sum (n b : ℕ) :
    bitsToNatLE ((List.range n).map (fun i => b.testBit i)) = b % 2 ^ n := by
  induction n with
  | zero => simp [bitsToNatLE, Nat.mod_one]
  | succ n ih =>
    rw [List.range_succ, List.map_append, List.map_cons, List.map_nil,
      bitsToNatLE_append, ih]
    simp only [List.length_map, List.length_range]
    have hmul : (2:ℕ) ^ (n + 1) = 2 ^ n * 2 := by rw [pow_succ]
    have hmm : b % (2 ^ n * 2) = b % 2 ^ n + 2 ^ n * (b / 2 ^ n % 2) := Nat.mod_mul
    rw [hmul, hmm, Nat.testBit_to_div_mod]
    by_cases hb : b / 2 ^ n % 2 = 1
    · simp [hb]
    · have h0 : b / 2 ^ n % 2 = 0 := by omega
      simp [hb, h0]

/-- Raw extraction of an eight-bit little-endian signal at bit zero from a
one-byte payload: the unsigned load is the byte itself, and the signed load
subtracts 256 when the top bit is set. -/
theorem rawValue_byte (mux : MultiplexIndicator) (vt : ValueType) (f o : ℚ)
    (u : String) (b : ℕ) (hb : b < 256) :
    rawValue ⟨0, 8, mux, vt, .LittleEndian, f, o, u⟩ [b] =
      some (match vt with
        | .Unsigned => (b : ℤ)
        | .Signed => if 2 ^ 7 ≤ b then (b : ℤ) - 2 ^ 8 else (b : ℤ)) := by
  unfold rawValue
  dsimp only
  have hbits : lsb0Bits [b] = (List.range 8).map (fun i => b.testBit i) := by
    simp [lsb0Bits]
  rw [if_neg (by norm_num)]
  have hlen : ((List.range 8).map (fun i => b.testBit i)).length = 8 := by
    simp
  rw [hbits]
  rw [if_pos (by rw [hlen])]
  have htake : (((List.range 8).map (fun i => b.testBit i)).drop 0).take 8 =
      (List.range 8).map (fun i => b.testBit i) := by
    rw [List.drop_zero, List.take_of_length_le (by rw [hlen])]
  rw [htake, testBit_range_sum]
  have hmod : b % 2 ^ 8 = b := Nat.mod_eq_of_lt hb
  rw [hmod]
  have h71 : (8:ℕ) - 1 = 7 := by norm_num
  rw [h71]
  cases vt with
  | Unsigned => simp
  | Signed =>
    by_cases hsb : (2:ℕ) ^ 7 ≤ b
    · simp [hsb, show (2:ℤ) ^ 7 ≤ (b:ℤ) from by exact_mod_cast hsb]
    · simp [hsb, show ¬ ((2:ℤ) ^ 7 ≤ (b:ℤ)) from by exact_mod_cast hsb]

/-- `signal_text` on a plain eight-bit little-endian signal over a one-byte
payload, with the raw load spelled out. -/
theorem signalText_byte (vt : ValueType) (f o : ℚ) (u : String) (b : ℕ)
    (hb : b < 256) :
    signalText ⟨0, 8, .Plain, vt, .LittleEndian, f, o, u⟩ { bytes := [b] } =
      some (
        let raw : ℤ := match vt with
          | .Unsigned => (b : ℤ)
          | .Signed => if 2 ^ 7 ≤ b then (b : ℤ) - 2 ^ 8 else (b : ℤ)
        if roundF32 f ≠ 1 ∨ roundF32 o < 0 then
          formatFixed3 (f32add (f32mul (roundF32 (raw : ℚ)) (roundF32 f)) (roundF32 o)) ++ u
        else
          toString (satU64 (f32add (roundF32 (raw : ℚ)) (roundF32 o))) ++ u) := by
  unfold signalText
  rw [if_neg (by simp)]
  rw [rawValue_byte .Plain vt f o u b hb]
  rfl

theorem roundF32_one : roundF32 (1 : ℚ) = 1 := by
  have h := roundF32_natCast 1 (by norm_num)
  simpa using h

theorem roundF32_zero : roundF32 (0 : ℚ) = 0 := by
  simp [roundF32]

theorem satU64_natCast (b : ℕ) (hb : b < 256) :
    satU64 (((b : ℤ) : ℚ)) = b := by
  unfold satU64
  rw [if_neg (by rw [not_lt]; positivity)]
  rw [Int.floor_intCast]
  have hn : ((b : ℤ)).toNat = b := Int.toNat_natCast b
  rw [hn]
  have h64 : b ≤ U64 - 1 := by
    unfold U64
    omega
  exact min_eq_left h64

/-- C8 (counterexample): a signed eight-bit signal with factor 1 and
offset 0 holding the encoded value −5 (raw byte 0xFB) decodes to the
string "0u" — the negative physical value saturates to zero in the
`as u64` cast — not to the literal "-5u" the claim requires. -/
theorem C8_counterexample :
    signalText ⟨0, 8, .Plain, .Signed, .LittleEndian, 1, 0, ("u")⟩ { bytes := [251] } =
      some ("0" ++ ("u")) ∧ ¬ (("0" ++ ("u") : String) = "-5" ++ ("u")) := by
  constructor
  · with_unfolding_all rfl
  · decide

/-- C8 (amended): the formatting asymmetry holds, but the integer branch
renders `(value + offset) as u64`, which saturates negative physical
values to zero: for every unit label, an unsigned 8-bit factor-1 offset-0
signal renders its byte in plain decimal; a signed 8-bit factor-1 offset-0
signal whose sign bit is set renders "0"; and a factor of (f64) 0.1 takes
the three-decimal branch, rendering raw 100 as "10.000". -/
theorem C8_formatting_asymmetry (u : String) (b c : ℕ) (hb : b < 256)
    (hc1 : 128 ≤ c) (hc2 : c < 256) :
    signalText ⟨0, 8, .Plain, .Unsigned, .LittleEndian, 1, 0, u⟩ { bytes := [b] } =
      some (toString b ++ u) ∧
    signalText ⟨0, 8, .Plain, .Signed, .LittleEndian, 1, 0, u⟩ { bytes := [c] } =
      some ("0" ++ u) ∧
    signalText ⟨0, 8, .Plain, .Unsigned, .LittleEndian,
        (3602879701896397 : ℚ) / 2 ^ 55, 0, ("u")⟩ { bytes := [100] } =
      some ("10.000u") := by
  refine ⟨?_, ?_, ?_⟩
  · rw [signalText_byte .Unsigned 1 0 u b hb]
    dsimp only
    rw [roundF32_one, roundF32_zero]
    rw [if_neg (by norm_num)]
    have hval : roundF32 (((b : ℤ) : ℚ)) = ((b : ℤ) : ℚ) :=
      roundF32_intCast (b : ℤ) (by simpa using lt_trans hb (by norm_num))
    unfold f32add
    rw [add_zero, hval, hval, satU64_natCast b hb]
  · rw [signalText_byte .Signed 1 0 u c hc2]
    dsimp only
    have hs : (2:ℕ) ^ 7 ≤ c := by omega
    rw [if_pos hs]
    rw [roundF32_one, roundF32_zero]
    rw [if_neg (by norm_num)]
    have habs : ((c : ℤ) - 2 ^ 8).natAbs < 2 ^ 24 := by omega
    have hval : roundF32 ((((c : ℤ) - 2 ^ 8) : ℤ) : ℚ) = ((((c : ℤ) - 2 ^ 8) : ℤ) : ℚ) :=
      roundF32_intCast _ habs
    unfold f32add
    rw [add_zero, hval, hval]
    have hneg : ((((c : ℤ) - 2 ^ 8) : ℤ) : ℚ) < 0 := by
      have h : (c : ℤ) - 2 ^ 8 < 0 := by omega
      exact_mod_cast h
    unfold satU64
    rw [if_pos hneg]
    rfl
  · with_unfolding_all rfl

/-- C8 (witness): the amended theorem at unit "u", bytes 100 (unsigned)
and 251 (signed, encoded value −5). -/
theorem C8_witness :
    signalText ⟨0, 8, .Plain, .Unsigned, .LittleEndian, 1, 0, ("u")⟩ { bytes := [100] } =
      some (toString 100 ++ ("u")) ∧
    signalText ⟨0, 8, .Plain, .Signed, .LittleEndian, 1, 0, ("u")⟩ { bytes := [251] } =
      some ("0" ++ ("u")) ∧
    signalText ⟨0, 8, .Plain, .Unsigned, .LittleEndian,
        (3602879701896397 : ℚ) / 2 ^ 55, 0, ("u")⟩ { bytes := [100] } =
      some ("10.000u") :=
  C8_formatting_asymmetry ("u") 100 251 (by decide) (by decide) (by decide)

/-! ### C7: the ordering invariant -/

theorem idLookup_slotPairs_none_iff (l : List Nat) (n k : Nat) :
    idLookup (slotPairs l n) k = none ↔ k ∉ l := by
  induction l generalizing n with
  | nil => simp [slotPairs, idLookup]
  | cons a l ih =>
    by_cases ha : a = k
    · simp [slotPairs, idLookup, ha]
    · simp only [slotPairs, idLookup, ha, if_false, ih (n + 1), List.mem_cons]
      constructor
      · intro h hor
        rcases hor with h1 | h2
        · exact ha h1.symm
        · exact h h2
      · intro h hm
        exact h (Or.inr hm)

theorem idLookup_slotPairs_some (l : List Nat) (n k v : Nat)
    (h : idLookup (slotPairs l n) k = some v) :
    n ≤ v ∧ v - n < l.length ∧ l[v - n]? = some k := by
  induction l generalizing n with
  | nil => exact Option.noConfusion h
  | cons a l ih =>
    by_cases ha : a = k
    · subst ha
      simp only [slotPairs, idLookup, if_true] at h
      have hnv : n = v := by simpa using h
      subst hnv
      exact ⟨le_rfl, by simp, by simp⟩
    · simp only [slotPairs, idLookup] at h
      rw [if_neg ha] at h
      obtain ⟨h1, h2, h3⟩ := ih (n + 1) h
      refine ⟨by omega, ?_, ?_⟩
      · simp only [List.length_cons]
        omega
      have hvn : v - n = (v - (n + 1)) + 1 := by omega
      rw [hvn]
      simpa using h3

theorem slotPairs_append (l : List Nat) (k n : Nat) :
    slotPairs (l ++ [k]) n = slotPairs l n ++ [(k, n + l.length)] := by
  induction l generalizing n with
  | nil => simp [slotPairs]
  | cons a l ih =>
    have harith : n + 1 + l.length = n + (l.length + 1) := by omega
    simp [slotPairs, ih (n + 1), harith]

theorem slotPairs_lookup_map (l : List Nat) (n : Nat) (hn : l.Nodup) :
    l.map (fun k => (idLookup (slotPairs l n) k).getD 0) = List.range' n l.length := by
  induction l generalizing n with
  | nil => simp
  | cons a l ih =>
    obtain ⟨hna, hnd⟩ := List.nodup_cons.mp hn
    simp only [List.map_cons, List.length_cons, List.range'_succ]
    congr 1
    · simp [slotPairs, idLookup]
    · rw [← ih (n + 1) hnd]
      apply List.map_congr_left
      intro x hx
      have hxa : ¬ (a = x) := fun hax => hna (hax ▸ hx)
      simp [slotPairs, idLookup, hxa]

theorem rebuildGo_all_found (ks : List Nat) (ids : List (Nat × Nat))
    (h : ∀ k ∈ ks, idLookup ids k ≠ none) :
    rebuildGo ks ids = (ks.map (fun k => (idLookup ids k).getD 0), ids) := by
  induction ks with
  | nil => rfl
  | cons k rest ih =>
    have hk := h k (List.mem_cons_self k rest)
    cases hv : idLookup ids k with
    | none => exact absurd hv hk
    | some v =>
      unfold rebuildGo entryOrDefault
      rw [hv]
      dsimp only
      rw [ih (fun x hx => h x (List.mem_cons_of_mem k hx))]
      simp [hv]

theorem map_modifyIdx_const (g : α → β) (f : α → α) (c : β)
    (hgf : ∀ a, g (f a) = c) (l : List α) :
    ∀ i, (modifyIdx l i f).map g = modifyIdx (l.map g) i (fun _ => c) := by
  induction l with
  | nil => intro i; simp [modifyIdx]
  | cons a l ih =>
    intro i
    cases i with
    | zero => simp [modifyIdx, hgf]
    | succ n => simp [modifyIdx, ih n]

theorem modifyIdx_const_self (l : List α) (i : Nat) (c : α)
    (h : l[i]? = some c) : modifyIdx l i (fun _ => c) = l := by
  induction l generalizing i with
  | nil => simp at h
  | cons a l ih =>
    cases i with
    | zero =>
      simp only [List.getElem?_cons_zero, Option.some.injEq] at h
      simp [modifyIdx, h]
    | succ n =>
      simp only [List.getElem?_cons_succ] at h
      simp [modifyIdx, ih n h]

theorem getD_map_currentId (msgs : List Message) (i : Nat) :
    (msgs.map (fun m => m.current.id)).getD i 0 = ((msgs.getD i {}).current.id) := by
  induction msgs generalizing i with
  | nil => rfl
  | cons m msgs ih =>
    cases i with
    | zero => rfl
    | succ n => simpa using ih n

theorem processPacket_hit_sorted_eq (s : Stats) (p : Packet) (i : Nat)
    (hl : idLookup s.ids p.id = some i) (hs : s.sorted = true) :
    processPacket s p =
      { s with packets := u32w (s.packets + 1), packet_accum := u32w (s.packet_accum + 1),
               bytes := u32w (s.bytes + p.bytes.length),
               bytes_accum := u32w (s.bytes_accum + p.bytes.length),
               messages := modifyIdx s.messages i (slotUpdate p) } := by
  unfold processPacket
  simp only [hl, hs]
  rfl

theorem processPacket_miss_eq (s : Stats) (p : Packet)
    (hl : idLookup s.ids p.id = none) :
    processPacket s p = rebuildOrdering
      { s with packets := u32w (s.packets + 1), packet_accum := u32w (s.packet_accum + 1),
               bytes := u32w (s.bytes + p.bytes.length),
               bytes_accum := u32w (s.bytes_accum + p.bytes.length),
               messages := s.messages ++
                 [slotUpdate p (messageNew p (s.dbcs.findIdx? (fun d => p.id ∈ d)))],
               ids := s.ids ++ [(p.id, s.messages.length)],
               sorted := false } := by
  unfold processPacket
  simp only [hl]
  rw [modifyIdx_append_length]
  rfl

theorem rebuildOrdering_spec (s : Stats)
    (h : ∀ k ∈ idList s, idLookup s.ids k ≠ none) :
    (rebuildOrdering s).ordering = orderingSpec s.ids (idList s) ∧
      (rebuildOrdering s).ids = s.ids ∧
      (rebuildOrdering s).messages = s.messages ∧
      (rebuildOrdering s).sorted = true := by
  have hfound : ∀ k ∈ (List.insertionSort (fun a b => a ≤ b) (idList s)).reverse,
      idLookup s.ids k ≠ none := by
    intro k hk
    have hk1 : k ∈ List.insertionSort (fun a b => a ≤ b) (idList s) :=
      List.mem_reverse.mp hk
    exact h k ((List.perm_insertionSort _ _).mem_iff.mp hk1)
  have hrg := rebuildGo_all_found _ s.ids hfound
  unfold rebuildOrdering
  dsimp only
  rw [hrg]
  refine ⟨?_, rfl, rfl, rfl⟩
  dsimp only
  rw [List.map_reverse, List.reverse_reverse]
  rfl

theorem processPacket_inv (s : Stats) (p : Packet) (h : StatsInv s) :
    StatsInv (processPacket s p) ∧
      idList (processPacket s p) =
        (if p.id ∈ idList s then idList s else idList s ++ [p.id]) ∧
      (processPacket s p).sorted = true := by
  obtain ⟨h1, h2, h3, h4⟩ := h
  cases hl : idLookup s.ids p.id with
  | some i =>
    obtain ⟨-, hilen, hget⟩ := idLookup_slotPairs_some (idList s) 0 p.id i (h1 ▸ hl)
    simp only [Nat.sub_zero] at hilen hget
    have hmem : p.id ∈ idList s := by
      exact List.getElem?_mem hget
    have hsT : s.sorted = true := by
      cases hst : s.sorted
      · exfalso
        obtain ⟨-, hmsg⟩ := h4 hst
        have hempty : idList s = [] := by rw [idList, hmsg]; rfl
        rw [hempty] at h1
        rw [h1] at hl
        exact Option.noConfusion hl
      · rfl
    have heq := processPacket_hit_sorted_eq s p i hl hsT
    rw [heq]
    have hidl : (modifyIdx s.messages i (slotUpdate p)).map (fun m => m.current.id)
        = idList s := by
      rw [map_modifyIdx_const (fun m => m.current.id) (slotUpdate p) p.id
        (fun a => rfl) s.messages i]
      exact modifyIdx_const_self _ _ _ hget
    refine ⟨⟨?_, ?_, ?_, ?_⟩, ?_, hsT⟩
    · show s.ids = slotPairs ((modifyIdx s.messages i (slotUpdate p)).map
        (fun m => m.current.id)) 0
      rw [hidl]
      exact h1
    · show ((modifyIdx s.messages i (slotUpdate p)).map (fun m => m.current.id)).Nodup
      rw [hidl]
      exact h2
    · intro hx
      show s.ordering = orderingSpec s.ids ((modifyIdx s.messages i
        (slotUpdate p)).map (fun m => m.current.id))
      rw [hidl]
      exact h3 hsT
    · intro hx
      exact Bool.noConfusion (hsT ▸ hx)
    · rw [if_pos hmem]
      show (modifyIdx s.messages i (slotUpdate p)).map (fun m => m.current.id)
        = idList s
      exact hidl
  | none =>
    have hnmem : p.id ∉ idList s := (idLookup_slotPairs_none_iff _ 0 _).mp (h1 ▸ hl)
    have heq := processPacket_miss_eq s p hl
    rw [heq]
    set s2 : Stats :=
      { s with packets := u32w (s.packets + 1), packet_accum := u32w (s.packet_accum + 1),
               bytes := u32w (s.bytes + p.bytes.length),
               bytes_accum := u32w (s.bytes_accum + p.bytes.length),
               messages := s.messages ++
                 [slotUpdate p (messageNew p (s.dbcs.findIdx? (fun d => p.id ∈ d)))],
               ids := s.ids ++ [(p.id, s.messages.length)],
               sorted := false } with hs2
    have hidl2 : idList s2 = idList s ++ [p.id] := by
      rw [hs2, idList]
      dsimp only
      rw [List.map_append]
      rfl
    have hids2 : s2.ids = slotPairs (idList s2) 0 := by
      rw [hidl2]
      show s.ids ++ [(p.id, s.messages.length)] = _
      rw [h1, slotPairs_append]
      have hlen : (idList s).length = s.messages.length := by
        rw [idList, List.length_map]
      rw [hlen]
      simp
    have hnd2 : (idList s2).Nodup := by
      rw [hidl2, List.nodup_append]
      exact ⟨h2, List.nodup_singleton _, by
        intro x hx hx2
        rw [List.mem_singleton] at hx2
        exact hnmem (hx2 ▸ hx)⟩
    have hall : ∀ k ∈ idList s2, idLookup s2.ids k ≠ none := by
      intro k hk hcon
      rw [hids2] at hcon
      exact (idLookup_slotPairs_none_iff _ 0 k).mp hcon hk
    obtain ⟨ho, hi, hm, hso⟩ := rebuildOrdering_spec s2 hall
    have hidlr : idList (rebuildOrdering s2) = idList s2 := by
      rw [idList, hm, idList]
    refine ⟨⟨?_, ?_, ?_, ?_⟩, ?_, hso⟩
    · rw [hi, hidlr]
      exact hids2
    · rw [hidlr]
      exact hnd2
    · intro hx
      rw [ho, hi, hidlr]
    · intro hx
      exact Bool.noConfusion (hso ▸ hx)
    · rw [if_neg hnmem, hidlr, hidl2]

theorem statsInv_foldl (ps : List Packet) (s : Stats) (h : StatsInv s) :
    StatsInv (ps.foldl processPacket s) ∧
      (idList (ps.foldl processPacket s)).toFinset =
        (idList s).toFinset ∪ (ps.map (fun p => p.id)).toFinset := by
  induction ps generalizing s with
  | nil =>
    exact ⟨h, by simp⟩
  | cons p ps ih =>
    obtain ⟨hinv, hidl, -⟩ := processPacket_inv s p h
    obtain ⟨hinv2, hfin⟩ := ih (processPacket s p) hinv
    rw [List.foldl_cons]
    refine ⟨hinv2, ?_⟩
    rw [hfin, hidl]
    by_cases hm : p.id ∈ idList s
    · rw [if_pos hm]
      ext x
      simp only [Finset.mem_union, List.mem_toFinset, List.map_cons,
        List.toFinset_cons, Finset.mem_insert]
      constructor
      · rintro (hx | hx)
        · exact Or.inl hx
        · exact Or.inr (Or.inr hx)
      · rintro (hx | hx | hx)
        · exact Or.inl hx
        · exact Or.inl (by rw [hx]; exact hm)
        · exact Or.inr hx
    · rw [if_neg hm]
      ext x
      simp only [List.toFinset_append, Finset.mem_union, List.mem_toFinset,
        List.map_cons, List.toFinset_cons, Finset.mem_insert, List.mem_cons,
        List.not_mem_nil, or_false]
      tauto

theorem statsInv_report (s : Stats) (h : StatsInv s) :
    s.ordering.Perm (List.range s.messages.length) ∧
      List.Chain' (fun a b => a < b)
        (s.ordering.map (fun i => ((s.messages.getD i {}).current.id))) := by
  obtain ⟨h1, h2, h3, h4⟩ := h
  cases hst : s.sorted with
  | false =>
    obtain ⟨ho, hm⟩ := h4 hst
    rw [ho, hm]
    exact ⟨by simp, by simp⟩
  | true =>
    have hord := h3 hst
    have hperm1 := List.perm_insertionSort (fun a b => a ≤ b) (idList s)
    have hmap := slotPairs_lookup_map (idList s) 0 h2
    have hlen : (idList s).length = s.messages.length := by
      rw [idList, List.length_map]
    constructor
    · rw [hord]
      have hp2 : orderingSpec s.ids (idList s) =
          (List.insertionSort (fun a b => a ≤ b) (idList s)).map
            (fun k => (idLookup s.ids k).getD 0) := rfl
      rw [hp2, h1]
      have := hperm1.map (fun k => (idLookup (slotPairs (idList s) 0) k).getD 0)
      rw [hmap] at this
      rw [← List.range_eq_range', hlen] at this
      exact this
    · rw [hord]
      have hp2 : orderingSpec s.ids (idList s) =
          (List.insertionSort (fun a b => a ≤ b) (idList s)).map
            (fun k => (idLookup s.ids k).getD 0) := rfl
      rw [hp2, List.map_map]
      have hcong : (List.insertionSort (fun a b => a ≤ b) (idList s)).map
          ((fun i => ((s.messages.getD i {}).current.id)) ∘
            (fun k => (idLookup s.ids k).getD 0)) =
          (List.insertionSort (fun a b => a ≤ b) (idList s)).map (fun k => k) := by
        apply List.map_congr_left
        intro k hk
        have hkmem : k ∈ idList s := hperm1.mem_iff.mp hk
        have hne : idLookup s.ids k ≠ none := by
          rw [h1]
          intro hcon
          exact (idLookup_slotPairs_none_iff _ 0 k).mp hcon hkmem
        cases hv : idLookup s.ids k with
        | none => exact absurd hv hne
        | some v =>
          obtain ⟨-, hvlen, hvget⟩ :=
            idLookup_slotPairs_some (idList s) 0 k v (h1 ▸ hv)
          simp only [Nat.sub_zero] at hvlen hvget
          show ((s.messages.getD ((idLookup s.ids k).getD 0) {}).current.id) = k
          rw [hv]
          show ((s.messages.getD v {}).current.id) = k
          rw [← getD_map_currentId]
          show (idList s).getD v 0 = k
          rw [List.getD_eq_getElem?_getD, hvget]
          rfl
      rw [hcong, List.map_id_fun']
      have hsorted := List.sorted_insertionSort (fun a b => a ≤ b) (idList s)
      have hnodup : (List.insertionSort (fun a b => a ≤ b) (idList s)).Nodup :=
        hperm1.nodup_iff.mpr h2
      have hpair : (List.insertionSort (fun a b => a ≤ b) (idList s)).Pairwise
          (fun a b => a < b) :=
        (List.Pairwise.and hsorted hnodup).imp
          (fun hab => lt_of_le_of_ne hab.1 hab.2)
      exact hpair.chain'

theorem foldl_addDbc_projs (ds : List (List Nat)) (s : Stats) :
    (ds.foldl addDbc s).ids = s.ids ∧ (ds.foldl addDbc s).messages = s.messages ∧
      (ds.foldl addDbc s).sorted = s.sorted ∧ (ds.foldl addDbc s).ordering = s.ordering := by
  induction ds generalizing s with
  | nil => exact ⟨rfl, rfl, rfl, rfl⟩
  | cons d ds ih => exact ih (addDbc s d)

/-- C7: for every sequence of processed frames from a fresh `Stats` (with
any DBC files loaded), including repeats of an already-registered
identifier, the display ordering is a permutation of the slot indices, its
dereferenced identifiers are strictly ascending, and there is exactly one
slot per distinct processed identifier. -/
theorem C7_ordering_invariant (baud now : Nat) (dbcs : List (List Nat)) (ps : List Packet) :
    let s := ps.foldl processPacket (dbcs.foldl addDbc (statsNew baud now))
    s.ordering.Perm (List.range s.messages.length) ∧
      List.Chain' (fun a b => a < b)
        (s.ordering.map (fun i => ((s.messages.getD i {}).current.id))) ∧
      s.messages.length = (ps.map (fun p => p.id)).dedup.length := by
  intro s
  obtain ⟨hbi, hbm, hbs, hbo⟩ := foldl_addDbc_projs dbcs (statsNew baud now)
  have hbase : StatsInv (dbcs.foldl addDbc (statsNew baud now)) := by
    refine ⟨?_, ?_, ?_, ?_⟩
    · rw [hbi, idList, hbm]
      rfl
    · rw [idList, hbm]
      exact List.nodup_nil
    · intro hc
      rw [hbs] at hc
      exact Bool.noConfusion hc
    · intro hc
      exact ⟨hbo.trans rfl, hbm.trans rfl⟩
  have hbidl : idList (dbcs.foldl addDbc (statsNew baud now)) = [] := by
    rw [idList, hbm]
    rfl
  obtain ⟨hinv, hfin⟩ := statsInv_foldl ps _ hbase
  have hinv2 : StatsInv s := hinv
  obtain ⟨hperm, hchain⟩ := statsInv_report s hinv2
  refine ⟨hperm, hchain, ?_⟩
  have hfin2 : (idList s).toFinset = (ps.map (fun p => p.id)).toFinset := by
    rw [hbidl] at hfin
    simpa using hfin
  obtain ⟨-, h2, -, -⟩ := hinv2
  have hlen : s.messages.length = (idList s).length := by
    rw [idList, List.length_map]
  have hd : (idList s).length = (idList s).dedup.length := by
    rw [h2.dedup]
  rw [hlen, hd, ← List.card_toFinset, hfin2, List.card_toFinset]

end Candor

